import Mathlib

set_option maxRecDepth 100000

/-!
Shallow embedding, in Lean 4, of an educational Bitcoin implementation
(three Python modules: a script engine, a UTXO/blockchain core, and a
transaction-prioritization module), together with proofs settling a list
of specification claims about it.

Bytes are modelled as `List Nat` with entries below 256; Python's
arbitrary-precision integers are `Int`/`Nat`, with `% 2 ^ 32` written out
wherever the source relies on 32-bit wrapping (hash word arithmetic).
Python dictionaries are association lists with insert-or-replace update,
and Python string hash keys are Lean `String`s.
-/

namespace BtcSpec

/-! ### Word and byte helpers -/

/-- Truncation to a 32-bit word: the `mod 2^32` wrap of hash arithmetic. -/
def w32 (n : Nat) : Nat := n % 4294967296

/-- Left rotation of a 32-bit word by `n` places. -/
def rotl32 (x n : Nat) : Nat := w32 ((x <<< n) ||| (x >>> (32 - n)))

/-- Right rotation of a 32-bit word by `n` places. -/
def rotr32 (x n : Nat) : Nat := w32 ((x >>> n) ||| (x <<< (32 - n)))

/-- Split a byte list into consecutive 64-byte blocks, structurally
recursive on a fuel that the wrapper sets to the list length (each step
consumes at least one element, so the fuel always suffices). -/
def chunks64Go : Nat → List Nat → List (List Nat)
  | 0, _ => []
  | _ + 1, [] => []
  | n + 1, l => l.take 64 :: chunks64Go n (l.drop 64)

/-- Split a byte list into consecutive 64-byte blocks (the last block may
be short if the input length is not a multiple of 64; hash inputs are
always padded to a multiple of 64 first). -/
def chunks64 (l : List Nat) : List (List Nat) :=
  chunks64Go l.length l

/-- Big-endian 32-bit words from a byte list, four bytes per word. -/
def wordsBE : List Nat → List Nat
  | a :: b :: c :: d :: t => (a * 16777216 + b * 65536 + c * 256 + d) :: wordsBE t
  | _ => []

/-- Little-endian 32-bit words from a byte list, four bytes per word. -/
def wordsLE : List Nat → List Nat
  | a :: b :: c :: d :: t => (a + b * 256 + c * 65536 + d * 16777216) :: wordsLE t
  | _ => []

/-- Big-endian 4-byte serialization of a 32-bit word. -/
def wordBE (x : Nat) : List Nat :=
  [x / 16777216 % 256, x / 65536 % 256, x / 256 % 256, x % 256]

/-- Little-endian 4-byte serialization of a 32-bit word
(Python `struct.pack` format `<I`). -/
def wordLE (x : Nat) : List Nat :=
  [x % 256, x / 256 % 256, x / 65536 % 256, x / 16777216 % 256]

/-- Little-endian 8-byte serialization of a 64-bit word
(Python `struct.pack` format `<Q`). -/
def word64LE (x : Nat) : List Nat :=
  [x % 256, x / 256 % 256, x / 65536 % 256, x / 16777216 % 256,
   x / 4294967296 % 256, x / 1099511627776 % 256,
   x / 281474976710656 % 256, x / 72057594037927936 % 256]

/-- Big-endian 8-byte serialization of a 64-bit word (SHA-256 length field). -/
def word64BE (x : Nat) : List Nat :=
  [x / 72057594037927936 % 256, x / 281474976710656 % 256,
   x / 1099511627776 % 256, x / 4294967296 % 256,
   x / 16777216 % 256, x / 65536 % 256, x / 256 % 256, x % 256]

/-! ### SHA-256 (`hashlib.sha256`), as used by all three modules -/

/-- The eight SHA-256 initial hash values (FIPS 180-4). -/
structure H8 where
  a : Nat
  b : Nat
  c : Nat
  d : Nat
  e : Nat
  f : Nat
  g : Nat
  h : Nat

/-- SHA-256 initial state. -/
def sha256Init : H8 :=
  ⟨0x6a09e667, 0xbb67ae85, 0x3c6ef372, 0xa54ff53a,
   0x510e527f, 0x9b05688c, 0x1f83d9ab, 0x5be0cd19⟩

/-- The 64 SHA-256 round constants (FIPS 180-4). -/
def sha256K : List Nat :=
  [1116352408, 1899447441, 3049323471, 3921009573, 961987163, 1508970993, 2453635748, 2870763221,
   3624381080, 310598401, 607225278, 1426881987, 1925078388, 2162078206, 2614888103, 3248222580,
   3835390401, 4022224774, 264347078, 604807628, 770255983, 1249150122, 1555081692, 1996064986,
   2554220882, 2821834349, 2952996808, 3210313671, 3336571891, 3584528711, 113926993, 338241895,
   666307205, 773529912, 1294757372, 1396182291, 1695183700, 1986661051, 2177026350, 2456956037,
   2730485921, 2820302411, 3259730800, 3345764771, 3516065817, 3600352804, 4094571909, 275423344,
   430227734, 506948616, 659060556, 883997877, 958139571, 1322822218, 1537002063, 1747873779,
   1955562222, 2024104815, 2227730452, 2361852424, 2428436474, 2756734187, 3204031479, 3329325298]

/-- Bitwise complement within 32 bits. -/
def not32 (x : Nat) : Nat := 4294967295 - x % 4294967296

/-- SHA-256 `Ch` function. -/
def shaCh (x y z : Nat) : Nat := (x &&& y) ^^^ (not32 x &&& z)

/-- SHA-256 `Maj` function. -/
def shaMaj (x y z : Nat) : Nat := (x &&& y) ^^^ (x &&& z) ^^^ (y &&& z)

/-- SHA-256 big sigma 0. -/
def bsig0 (x : Nat) : Nat := rotr32 x 2 ^^^ rotr32 x 13 ^^^ rotr32 x 22

/-- SHA-256 big sigma 1. -/
def bsig1 (x : Nat) : Nat := rotr32 x 6 ^^^ rotr32 x 11 ^^^ rotr32 x 25

/-- SHA-256 small sigma 0. -/
def ssig0 (x : Nat) : Nat := rotr32 x 7 ^^^ rotr32 x 18 ^^^ (x >>> 3)

/-- SHA-256 small sigma 1. -/
def ssig1 (x : Nat) : Nat := rotr32 x 17 ^^^ rotr32 x 19 ^^^ (x >>> 10)

/-- Message-schedule word `t` from the words so far (list of length `t ≥ 16`). -/
def nextW (w : List Nat) : Nat :=
  let t := w.length
  w32 (ssig1 (w.getD (t - 2) 0) + w.getD (t - 7) 0 + ssig0 (w.getD (t - 15) 0) + w.getD (t - 16) 0)

/-- Extend the 16 block words by `n` further schedule words. -/
def extendW : Nat → List Nat → List Nat
  | 0, w => w
  | n + 1, w => extendW n (w ++ [nextW w])

/-- One SHA-256 round, consuming one `(K, W)` pair. -/
def shaRound (s : H8) (kw : Nat × Nat) : H8 :=
  let t1 := w32 (s.h + bsig1 s.e + shaCh s.e s.f s.g + kw.1 + kw.2)
  let t2 := w32 (bsig0 s.a + shaMaj s.a s.b s.c)
  ⟨w32 (t1 + t2), s.a, s.b, s.c, w32 (s.d + t1), s.e, s.f, s.g⟩

/-- Compress one 64-byte block into the running state. -/
def shaCompress (s : H8) (block : List Nat) : H8 :=
  let ws := extendW 48 (wordsBE block)
  let r := (sha256K.zip ws).foldl shaRound s
  ⟨w32 (s.a + r.a), w32 (s.b + r.b), w32 (s.c + r.c), w32 (s.d + r.d),
   w32 (s.e + r.e), w32 (s.f + r.f), w32 (s.g + r.g), w32 (s.h + r.h)⟩

/-- SHA-256 padding: `0x80`, zeros to 56 mod 64, then the 64-bit big-endian
bit length. -/
def sha256Pad (msg : List Nat) : List Nat :=
  let l := msg.length
  let k := (64 - (l + 9) % 64) % 64
  msg ++ [0x80] ++ List.replicate k 0 ++ word64BE (l * 8)

/-- Single SHA-256 hash (Python `sha256`): digest of a byte string, as
32 bytes. -/
def sha256 (msg : List Nat) : List Nat :=
  let s := (chunks64 (sha256Pad msg)).foldl shaCompress sha256Init
  wordBE s.a ++ wordBE s.b ++ wordBE s.c ++ wordBE s.d ++
  wordBE s.e ++ wordBE s.f ++ wordBE s.g ++ wordBE s.h

/-- Double SHA-256 (Python `hash256`), the Bitcoin standard hash. -/
def hash256 (data : List Nat) : List Nat := sha256 (sha256 data)

/-- HMAC-SHA256 (Python `hmac.new(key, msg, hashlib.sha256).digest()`),
FIPS 198-1 with a 64-byte block. -/
def hmacSha256 (key msg : List Nat) : List Nat :=
  let k0 := if key.length > 64 then sha256 key else key
  let kp := k0 ++ List.replicate (64 - k0.length) 0
  let ipad := kp.map (fun b => b ^^^ 0x36)
  let opad := kp.map (fun b => b ^^^ 0x5c)
  sha256 (opad ++ sha256 (ipad ++ msg))

/-- Simplified signing from the sources (`sign_message` in
`bitcoin_scripts.py`, `Wallet.sign` in `bitcoin_implementation.py`):
HMAC-SHA256 of the message under the private key. -/
def sign_message (private_key message : List Nat) : List Nat :=
  hmacSha256 private_key message

/-- Simplified signature verification from `bitcoin_scripts.py`
(`verify_signature`): despite computing nothing from the message, the
function returns true exactly when the signature is 32 bytes and the
public key is 32 bytes. -/
def verify_signature (public_key message signature : List Nat) : Bool :=
  signature.length == 32 && public_key.length == 32

/-! ### RIPEMD-160 (`hashlib.new('ripemd160')`), used only through `hash160` -/

/-- State of the RIPEMD-160 compression function: five 32-bit words. -/
structure R5 where
  a : Nat
  b : Nat
  c : Nat
  d : Nat
  e : Nat

/-- RIPEMD-160 initial state. -/
def rmdInit : R5 := ⟨0x67452301, 0xefcdab89, 0x98badcfe, 0x10325476, 0xc3d2e1f0⟩

/-- RIPEMD-160 nonlinear functions, by round index `j < 80`. -/
def rmdF (j x y z : Nat) : Nat :=
  if j < 16 then x ^^^ y ^^^ z
  else if j < 32 then (x &&& y) ||| (not32 x &&& z)
  else if j < 48 then (x ||| not32 y) ^^^ z
  else if j < 64 then (x &&& z) ||| (y &&& not32 z)
  else x ^^^ (y ||| not32 z)

/-- RIPEMD-160 left-line round constants. -/
def rmdK (j : Nat) : Nat :=
  if j < 16 then 0 else if j < 32 then 0x5a827999 else if j < 48 then 0x6ed9eba1
  else if j < 64 then 0x8f1bbcdc else 0xa953fd4e

/-- RIPEMD-160 right-line round constants. -/
def rmdK' (j : Nat) : Nat :=
  if j < 16 then 0x50a28be6 else if j < 32 then 0x5c4dd124 else if j < 48 then 0x6d703ef3
  else if j < 64 then 0x7a6d76e9 else 0

/-- RIPEMD-160 left-line message word order. -/
def rmdR : List Nat :=
  [0, 1, 2, 3, 4, 5, 6, 7, 8, 9, 10, 11, 12, 13, 14, 15,
   7, 4, 13, 1, 10, 6, 15, 3, 12, 0, 9, 5, 2, 14, 11, 8,
   3, 10, 14, 4, 9, 15, 8, 1, 2, 7, 0, 6, 13, 11, 5, 12,
   1, 9, 11, 10, 0, 8, 12, 4, 13, 3, 7, 15, 14, 5, 6, 2,
   4, 0, 5, 9, 7, 12, 2, 10, 14, 1, 3, 8, 11, 6, 15, 13]

/-- RIPEMD-160 right-line message word order. -/
def rmdR' : List Nat :=
  [5, 14, 7, 0, 9, 2, 11, 4, 13, 6, 15, 8, 1, 10, 3, 12,
   6, 11, 3, 7, 0, 13, 5, 10, 14, 15, 8, 12, 4, 9, 1, 2,
   15, 5, 1, 3, 7, 14, 6, 9, 11, 8, 12, 2, 10, 0, 4, 13,
   8, 6, 4, 1, 3, 11, 15, 0, 5, 12, 2, 13, 9, 7, 10, 14,
   12, 15, 10, 4, 1, 5, 8, 7, 6, 2, 13, 14, 0, 3, 9, 11]

/-- RIPEMD-160 left-line rotation amounts. -/
def rmdS : List Nat :=
  [11, 14, 15, 12, 5, 8, 7, 9, 11, 13, 14, 15, 6, 7, 9, 8,
   7, 6, 8, 13, 11, 9, 7, 15, 7, 12, 15, 9, 11, 7, 13, 12,
   11, 13, 6, 7, 14, 9, 13, 15, 14, 8, 13, 6, 5, 12, 7, 5,
   11, 12, 14, 15, 14, 15, 9, 8, 9, 14, 5, 6, 8, 6, 5, 12,
   9, 15, 5, 11, 6, 8, 13, 12, 5, 12, 13, 14, 11, 8, 5, 6]

/-- RIPEMD-160 right-line rotation amounts. -/
def rmdS' : List Nat :=
  [8, 9, 9, 11, 13, 15, 15, 5, 7, 7, 8, 11, 14, 14, 12, 6,
   9, 13, 15, 7, 12, 8, 9, 11, 7, 7, 12, 7, 6, 15, 13, 11,
   9, 7, 15, 11, 8, 6, 6, 14, 12, 13, 5, 14, 13, 13, 7, 5,
   15, 5, 8, 11, 14, 14, 6, 14, 6, 9, 12, 9, 12, 5, 15, 8,
   8, 5, 12, 9, 12, 5, 14, 6, 8, 13, 6, 5, 15, 13, 11, 11]

/-- One RIPEMD-160 line step at round `j`, with word order `r`, shifts `s`,
constant `k`, nonlinear function index `fj`, over block words `x`. -/
def rmdStep (x : List Nat) (r s : List Nat) (k : Nat → Nat) (fj : Nat → Nat)
    (st : R5) (j : Nat) : R5 :=
  let t := w32 (rotl32 (w32 (st.a + rmdF (fj j) st.b st.c st.d +
    x.getD (r.getD j 0) 0 + k j)) (s.getD j 0) + st.e)
  ⟨st.e, t, st.b, rotl32 st.c 10, st.d⟩

/-- Compress one 64-byte block into the running RIPEMD-160 state: the two
parallel 80-step lines followed by the cross-over recombination. -/
def rmdCompress (h : R5) (block : List Nat) : R5 :=
  let x := wordsLE block
  let l := (List.range 80).foldl (rmdStep x rmdR rmdS rmdK (fun j => j)) h
  let r := (List.range 80).foldl (rmdStep x rmdR' rmdS' rmdK' (fun j => 79 - j)) h
  ⟨w32 (h.b + l.c + r.d), w32 (h.c + l.d + r.e), w32 (h.d + l.e + r.a),
   w32 (h.e + l.a + r.b), w32 (h.a + l.b + r.c)⟩

/-- RIPEMD-160 padding: `0x80`, zeros, then the 64-bit little-endian bit
length. -/
def rmdPad (msg : List Nat) : List Nat :=
  let l := msg.length
  let k := (64 - (l + 9) % 64) % 64
  msg ++ [0x80] ++ List.replicate k 0 ++ word64LE (l * 8)

/-- RIPEMD-160 hash of a byte string, as 20 bytes. -/
def ripemd160 (msg : List Nat) : List Nat :=
  let s := (chunks64 (rmdPad msg)).foldl rmdCompress rmdInit
  wordLE s.a ++ wordLE s.b ++ wordLE s.c ++ wordLE s.d ++ wordLE s.e

/-- SHA-256 followed by RIPEMD-160 (Python `hash160`). -/
def hash160 (data : List Nat) : List Nat := ripemd160 (sha256 data)

/-! ### Script numbers (`_encode_num` / `_decode_num` in `bitcoin_scripts.py`)

Byte values are below 256 (Python `bytes`), so the source's bit tests are
rendered arithmetically: `x & 0x80 != 0` is `128 ≤ x`, `x & 0x7f` is
`x % 128`, `x & 0xff` is `x % 256`, `x >> 8` is `x / 256`, and, on a top
byte below 128, `x |= 0x80` is `x + 128`. -/

/-- Little-endian magnitude bytes of `m` (the source's
`while n > 0: result.append(n & 0xff); n >>= 8` loop), written with a
structural fuel so the kernel can evaluate it; the recursion depth is the
number of base-256 digits, so fuel `m` always suffices. -/
def toLEGo : Nat → Nat → List Nat
  | _, 0 => []
  | 0, _ + 1 => []
  | f + 1, m + 1 => (m + 1) % 256 :: toLEGo f ((m + 1) / 256)

/-- Little-endian magnitude bytes of `m`, empty exactly for `m = 0`. -/
def toLE (m : Nat) : List Nat := toLEGo m m

/-- Value of a little-endian byte string (the source's
`result |= byte << (8 * i)` accumulation; on byte values the or is a sum). -/
def fromLE : List Nat → Nat
  | [] => 0
  | b :: t => b + 256 * fromLE t

/-- Encode an integer to Bitcoin script-number format (`_encode_num`):
zero is the empty string; otherwise little-endian magnitude bytes, with
the sign carried in the top byte's high bit, or in an extra
`0x00`/`0x80` byte when the top magnitude byte already has the high bit. -/
def encode_num (n : Int) : List Nat :=
  if n = 0 then []
  else if 128 ≤ (toLE n.natAbs).getLastD 0 then
    toLE n.natAbs ++ [if n < 0 then 0x80 else 0x00]
  else if n < 0 then
    (toLE n.natAbs).dropLast ++ [(toLE n.natAbs).getLastD 0 + 128]
  else toLE n.natAbs

/-- Decode a Bitcoin script-number byte string to an integer
(`_decode_num`): empty is zero; otherwise the high bit of the final byte
is the sign and the rest is the little-endian magnitude. -/
def decode_num (data : List Nat) : Int :=
  if data = [] then 0
  else if 128 ≤ data.getLastD 0 then
    -(fromLE (data.dropLast ++ [data.getLastD 0 % 128]) : Int)
  else (fromLE data : Int)

/-! ### Scripts and their wire form (`Script.serialize` / `Script.deserialize`) -/

/-- One script item, as stored in `Script.opcodes`: a plain opcode byte
(`int` in the source) or a push payload (`bytes` in the source). -/
inductive ScriptItem where
  | op : Nat → ScriptItem
  | push : List Nat → ScriptItem
deriving DecidableEq, Repr

/-- A script is its list of items. -/
abbrev Script := List ScriptItem

/-- Wire form of one item (`Script.serialize` body): pushes get a direct
length byte (< 76), an `OP_PUSHDATA1` header (≤ 0xff) or an
`OP_PUSHDATA2` little-endian header; longer pushes make `struct.pack`
raise, and an opcode above 255 makes `bytes([op])` raise, both modelled
as `none`. -/
def serializeItem : ScriptItem → Option (List Nat)
  | .push b =>
    let length := b.length
    if length < 76 then some (length :: b)
    else if length ≤ 0xff then some (0x4c :: length :: b)
    else if length ≤ 0xffff then some (0x4d :: length % 256 :: length / 256 :: b)
    else none
  | .op o => if o ≤ 255 then some [o] else none

/-- Serialize a script to bytes (`Script.serialize`). -/
def serializeScript : Script → Option (List Nat)
  | [] => some []
  | it :: rest => do
    let h ← serializeItem it
    let t ← serializeScript rest
    pure (h ++ t)

/-- Parsing loop of `Script.deserialize`, structurally recursive on a
fuel that the wrapper sets to the byte count (every step consumes at
least the opcode byte). A byte below `OP_PUSHDATA1` is a direct push of
that many following bytes (truncating silently, as Python slices do);
`OP_PUSHDATA1`/`OP_PUSHDATA2` read a 1- or 2-byte little-endian length
(running out of length bytes raises in Python, modelled as `none`);
anything else is kept as an opcode item. -/
def deserializeGo : Nat → List Nat → Option Script
  | _, [] => some []
  | 0, _ :: _ => none
  | n + 1, opcode :: rest =>
    if opcode < 0x4c then
      (deserializeGo n (rest.drop opcode)).map (ScriptItem.push (rest.take opcode) :: ·)
    else if opcode = 0x4c then
      match rest with
      | [] => none
      | len :: r2 => (deserializeGo n (r2.drop len)).map (ScriptItem.push (r2.take len) :: ·)
    else if opcode = 0x4d then
      match rest with
      | l0 :: l1 :: r2 =>
        let len := l0 + 256 * l1
        (deserializeGo n (r2.drop len)).map (ScriptItem.push (r2.take len) :: ·)
      | _ => none
    else
      (deserializeGo n rest).map (ScriptItem.op opcode :: ·)

/-- Deserialize a script from bytes (`Script.deserialize`). -/
def deserialize (data : List Nat) : Option Script := deserializeGo data.length data

/-! ### Opcode byte values (the `OpCode` enumeration) -/

def OP_0 : Nat := 0x00
def OP_PUSHDATA1 : Nat := 0x4c
def OP_PUSHDATA2 : Nat := 0x4d
def OP_1NEGATE : Nat := 0x4f
def OP_1 : Nat := 0x51
def OP_16 : Nat := 0x60
def OP_NOP : Nat := 0x61
def OP_IF : Nat := 0x63
def OP_NOTIF : Nat := 0x64
def OP_ELSE : Nat := 0x67
def OP_ENDIF : Nat := 0x68
def OP_VERIFY : Nat := 0x69
def OP_RETURN : Nat := 0x6a
def OP_DROP : Nat := 0x75
def OP_DUP : Nat := 0x76
def OP_OVER : Nat := 0x78
def OP_ROT : Nat := 0x7b
def OP_SWAP : Nat := 0x7c
def OP_2DUP : Nat := 0x6e
def OP_3DUP : Nat := 0x6f
def OP_EQUAL : Nat := 0x87
def OP_EQUALVERIFY : Nat := 0x88
def OP_1ADD : Nat := 0x8b
def OP_1SUB : Nat := 0x8c
def OP_ADD : Nat := 0x93
def OP_SUB : Nat := 0x94
def OP_SHA256 : Nat := 0xa8
def OP_HASH160 : Nat := 0xa9
def OP_HASH256 : Nat := 0xaa
def OP_CHECKSIG : Nat := 0xac
def OP_CHECKSIGVERIFY : Nat := 0xad
def OP_CHECKMULTISIG : Nat := 0xae
def OP_CHECKLOCKTIMEVERIFY : Nat := 0xb1
def OP_CHECKSEQUENCEVERIFY : Nat := 0xb2
def OP_NOP1 : Nat := 0xb0
def OP_NOP4 : Nat := 0xb3
def OP_NOP5 : Nat := 0xb4
def OP_NOP6 : Nat := 0xb5
def OP_NOP7 : Nat := 0xb6
def OP_NOP8 : Nat := 0xb7
def OP_NOP9 : Nat := 0xb8
def OP_NOP10 : Nat := 0xb9

/-! ### The script interpreter (`ScriptInterpreter`) -/

/-- Transaction context dictionary of the interpreter. Missing keys are
`none`; the `.get(key, default)` defaults of the source are applied at
each read site. `now` stands for `int(time.time())`, the ambient clock
the source uses as the default current time. -/
structure TxContext where
  tx_data : List Nat := []
  locktime : Option Int := none
  current_time : Option Int := none
  block_height : Option Int := none
  sequence : Option Int := none
  now : Int := 0
deriving Repr

/-- Mutable state of a `ScriptInterpreter`: the main stack and the alt
stack, top first (Python appends and pops at the end of its lists). -/
structure VMState where
  stack : List (List Nat) := []
  alt_stack : List (List Nat) := []
deriving DecidableEq, Repr

/-- Cast a byte string to a Boolean (`_cast_to_bool`): empty and negative
zero `0x80` are false, everything else is true. -/
def castToBool (data : List Nat) : Bool :=
  if data.length = 0 then false
  else if data = [0x80] then false
  else true

/-- Signature-counting loop of the `OP_CHECKMULTISIG` branch: walk the
popped public keys in reverse order, consuming the signature at the
current index whenever `verify_signature` accepts it. -/
def msigCount (tx_data : List Nat) (signatures : List (List Nat)) :
    List (List Nat) → Nat → Nat
  | [], i => i
  | pk :: rest, i =>
    if i ≥ signatures.length then i
    else if verify_signature pk tx_data (signatures.getD i []) then
      msigCount tx_data signatures rest (i + 1)
    else msigCount tx_data signatures rest i

/-- Execute a single opcode (`_execute_opcode`). Returns the state after
the opcode together with `none` on success or the `ScriptError` message;
on an error the returned state keeps the pops performed before the
raise, as the Python object would. -/
def execOp (ctx : TxContext) (st : VMState) (opcode : Nat) : VMState × Option String :=
  if opcode ≤ OP_16 then
    if opcode = OP_0 then ({st with stack := [] :: st.stack}, none)
    else ({st with stack := encode_num ((opcode : Int) - OP_1 + 1) :: st.stack}, none)
  else if opcode = OP_NOP then (st, none)
  else if opcode = OP_VERIFY then
    match st.stack with
    | [] => (st, some "OP_VERIFY: stack underflow")
    | top :: rest =>
      if castToBool top then ({st with stack := rest}, none)
      else (st, some "OP_VERIFY: verify failed")
  else if opcode = OP_RETURN then (st, some "OP_RETURN: script failed")
  else if opcode = OP_DUP then
    match st.stack with
    | [] => (st, some "OP_DUP: stack underflow")
    | top :: rest => ({st with stack := top :: top :: rest}, none)
  else if opcode = OP_DROP then
    match st.stack with
    | [] => (st, some "OP_DROP: stack underflow")
    | _ :: rest => ({st with stack := rest}, none)
  else if opcode = OP_SWAP then
    match st.stack with
    | x1 :: x2 :: rest => ({st with stack := x2 :: x1 :: rest}, none)
    | _ => (st, some "OP_SWAP: stack underflow")
  else if opcode = OP_2DUP then
    match st.stack with
    | x1 :: x2 :: rest => ({st with stack := x1 :: x2 :: x1 :: x2 :: rest}, none)
    | _ => (st, some "OP_2DUP: stack underflow")
  else if opcode = OP_3DUP then
    match st.stack with
    | x1 :: x2 :: x3 :: rest =>
      ({st with stack := x1 :: x2 :: x3 :: x1 :: x2 :: x3 :: rest}, none)
    | _ => (st, some "OP_3DUP: stack underflow")
  else if opcode = OP_OVER then
    match st.stack with
    | x1 :: x2 :: rest => ({st with stack := x2 :: x1 :: x2 :: rest}, none)
    | _ => (st, some "OP_OVER: stack underflow")
  else if opcode = OP_ROT then
    match st.stack with
    | x1 :: x2 :: x3 :: rest => ({st with stack := x3 :: x1 :: x2 :: rest}, none)
    | _ => (st, some "OP_ROT: stack underflow")
  else if opcode = OP_EQUAL then
    match st.stack with
    | a :: b :: rest =>
      ({st with stack := (if a = b then [0x01] else []) :: rest}, none)
    | _ => (st, some "OP_EQUAL: stack underflow")
  else if opcode = OP_EQUALVERIFY then
    match st.stack with
    | a :: b :: rest =>
      if a = b then ({st with stack := rest}, none)
      else ({st with stack := rest}, some "OP_EQUALVERIFY: equality check failed")
    | _ => (st, some "OP_EQUALVERIFY: stack underflow")
  else if opcode = OP_1ADD then
    match st.stack with
    | top :: rest => ({st with stack := encode_num (decode_num top + 1) :: rest}, none)
    | _ => (st, some "OP_1ADD: stack underflow")
  else if opcode = OP_1SUB then
    match st.stack with
    | top :: rest => ({st with stack := encode_num (decode_num top - 1) :: rest}, none)
    | _ => (st, some "OP_1SUB: stack underflow")
  else if opcode = OP_ADD then
    match st.stack with
    | bV :: aV :: rest =>
      ({st with stack := encode_num (decode_num aV + decode_num bV) :: rest}, none)
    | _ => (st, some "OP_ADD: stack underflow")
  else if opcode = OP_SUB then
    match st.stack with
    | bV :: aV :: rest =>
      ({st with stack := encode_num (decode_num aV - decode_num bV) :: rest}, none)
    | _ => (st, some "OP_SUB: stack underflow")
  else if opcode = OP_SHA256 then
    match st.stack with
    | top :: rest => ({st with stack := sha256 top :: rest}, none)
    | _ => (st, some "OP_SHA256: stack underflow")
  else if opcode = OP_HASH160 then
    match st.stack with
    | top :: rest => ({st with stack := hash160 top :: rest}, none)
    | _ => (st, some "OP_HASH160: stack underflow")
  else if opcode = OP_HASH256 then
    match st.stack with
    | top :: rest => ({st with stack := hash256 top :: rest}, none)
    | _ => (st, some "OP_HASH256: stack underflow")
  else if opcode = OP_CHECKSIG then
    match st.stack with
    | pubkey :: signature :: rest =>
      let valid := verify_signature pubkey ctx.tx_data signature
      ({st with stack := (if valid then [0x01] else []) :: rest}, none)
    | _ => (st, some "OP_CHECKSIG: stack underflow")
  else if opcode = OP_CHECKSIGVERIFY then
    match st.stack with
    | pubkey :: signature :: rest =>
      if verify_signature pubkey ctx.tx_data signature then ({st with stack := rest}, none)
      else ({st with stack := rest}, some "OP_CHECKSIGVERIFY: signature verification failed")
    | _ => (st, some "OP_CHECKSIGVERIFY: stack underflow")
  else if opcode = OP_CHECKMULTISIG then
    match st.stack with
    | [] => (st, some "OP_CHECKMULTISIG: stack underflow")
    | nTop :: s1 =>
      let n := decode_num nTop
      if (s1.length : Int) < n then
        ({st with stack := s1}, some "OP_CHECKMULTISIG: not enough public keys")
      else
        let pubkeys := s1.take n.toNat
        let s2 := s1.drop n.toNat
        match s2 with
        | [] => ({st with stack := s2}, some "OP_CHECKMULTISIG: stack underflow")
        | mTop :: s3 =>
          let m := decode_num mTop
          if (s3.length : Int) < m then
            ({st with stack := s3}, some "OP_CHECKMULTISIG: not enough signatures")
          else
            let signatures := s3.take m.toNat
            let s4 := s3.drop m.toNat
            match s4 with
            | [] => ({st with stack := s4}, some "OP_CHECKMULTISIG: stack underflow (bug)")
            | _ :: s5 =>
              let valid := (msigCount ctx.tx_data signatures pubkeys.reverse 0 : Int) = m
              ({st with stack := (if valid then [0x01] else []) :: s5}, none)
  else if opcode = OP_CHECKLOCKTIMEVERIFY then
    match st.stack with
    | [] => (st, some "OP_CHECKLOCKTIMEVERIFY: stack underflow")
    | top :: _ =>
      let locktime := decode_num top
      let current_time := ctx.current_time.getD ctx.now
      if locktime < 500000000 then
        let current_height := ctx.block_height.getD 0
        if locktime > current_height then
          (st, some "OP_CHECKLOCKTIMEVERIFY: locktime not met (block height)")
        else (st, none)
      else
        if locktime > current_time then
          (st, some "OP_CHECKLOCKTIMEVERIFY: locktime not met (timestamp)")
        else (st, none)
  else if opcode = OP_CHECKSEQUENCEVERIFY then
    match st.stack with
    | [] => (st, some "OP_CHECKSEQUENCEVERIFY: stack underflow")
    | top :: _ =>
      let sequence := decode_num top
      let tx_sequence := ctx.sequence.getD 0xffffffff
      if sequence < 0 then (st, some "OP_CHECKSEQUENCEVERIFY: negative sequence")
      else if sequence > tx_sequence then
        (st, some "OP_CHECKSEQUENCEVERIFY: sequence not met")
      else (st, none)
  else if opcode = OP_NOP1 ∨ opcode = OP_NOP4 ∨ opcode = OP_NOP5 ∨ opcode = OP_NOP6 ∨
      opcode = OP_NOP7 ∨ opcode = OP_NOP8 ∨ opcode = OP_NOP9 ∨ opcode = OP_NOP10 then
    (st, none)
  else (st, some "Unknown or unimplemented opcode")

/-- Execute one script item: data is pushed, opcodes are dispatched. -/
def execItem (ctx : TxContext) (st : VMState) : ScriptItem → VMState × Option String
  | .push b => ({st with stack := b :: st.stack}, none)
  | .op o => execOp ctx st o

/-- Execution loop of `ScriptInterpreter.execute`: run the items in order,
stopping at the first `ScriptError`. -/
def runItems (ctx : TxContext) (st : VMState) : Script → VMState × Option String
  | [] => (st, none)
  | it :: rest =>
    match execItem ctx st it with
    | (st', none) => runItems ctx st' rest
    | (st', some e) => (st', some e)

/-- Execute a script (`ScriptInterpreter.execute`): walk the items over
the interpreter's current state — the stacks are NOT cleared here, only
`__init__` creates them empty — then report success exactly when no error
occurred, the stack is non-empty and its top casts to true. The returned
state is the interpreter's state after the call. -/
def execute (ctx : TxContext) (st : VMState) (script : Script) : VMState × Bool :=
  match runItems ctx st script with
  | (st', some _) => (st', false)
  | (st', none) =>
    match st'.stack with
    | [] => (st', false)
    | top :: _ => (st', castToBool top)

/-- Fresh interpreter state (`ScriptInterpreter.__init__`): both stacks
empty. -/
def initState : VMState := ⟨[], []⟩

/-! ### Script templates (`ScriptTemplates`) -/

/-- P2PKH locking script: `OP_DUP OP_HASH160 <pubKeyHash> OP_EQUALVERIFY
OP_CHECKSIG`. -/
def p2pkh_script_pubkey (pubkey_hash : List Nat) : Script :=
  [.op OP_DUP, .op OP_HASH160, .push pubkey_hash, .op OP_EQUALVERIFY, .op OP_CHECKSIG]

/-- P2PKH unlocking script: `<signature> <pubkey>`. -/
def p2pkh_script_sig (signature pubkey : List Nat) : Script :=
  [.push signature, .push pubkey]

/-- P2SH locking script: `OP_HASH160 <scriptHash> OP_EQUAL`. -/
def p2sh_script_pubkey (script_hash : List Nat) : Script :=
  [.op OP_HASH160, .push script_hash, .op OP_EQUAL]

/-- P2WPKH locking script: `OP_0 <20-byte pubkey hash>`. -/
def p2wpkh_script_pubkey (pubkey_hash : List Nat) : Script :=
  [.op OP_0, .push pubkey_hash]

/-- P2WSH locking script: `OP_0 <32-byte script hash>`. -/
def p2wsh_script_pubkey (script_hash : List Nat) : Script :=
  [.op OP_0, .push script_hash]

/-- M-of-N multisig locking script:
`M <pubkey1> ... <pubkeyN> N OP_CHECKMULTISIG`, with `M` and `N` written
as the constant opcodes `M + OP_1 - 1` and `N + OP_1 - 1`. -/
def multisig_script_pubkey (m : Nat) (pubkeys : List (List Nat)) : Script :=
  let n := pubkeys.length
  .op (m + OP_1 - 1) :: (pubkeys.map .push ++ [.op (n + OP_1 - 1), .op OP_CHECKMULTISIG])

/-- Multisig unlocking script: `OP_0 <sig1> ... <sigM>` (the leading
`OP_0` feeds the `OP_CHECKMULTISIG` extra-pop bug). -/
def multisig_script_sig (signatures : List (List Nat)) : Script :=
  .op OP_0 :: signatures.map .push

/-- CLTV timelock script: `<locktime> OP_CHECKLOCKTIMEVERIFY OP_DROP
OP_DUP OP_HASH160 <pubKeyHash> OP_EQUALVERIFY OP_CHECKSIG`. -/
def timelock_script_cltv (locktime : Int) (pubkey_hash : List Nat) : Script :=
  [.push (encode_num locktime), .op OP_CHECKLOCKTIMEVERIFY, .op OP_DROP,
   .op OP_DUP, .op OP_HASH160, .push pubkey_hash, .op OP_EQUALVERIFY, .op OP_CHECKSIG]

/-- CSV relative timelock script: `<sequence> OP_CHECKSEQUENCEVERIFY
OP_DROP OP_DUP OP_HASH160 <pubKeyHash> OP_EQUALVERIFY OP_CHECKSIG`. -/
def timelock_script_csv (sequence : Int) (pubkey_hash : List Nat) : Script :=
  [.push (encode_num sequence), .op OP_CHECKSEQUENCEVERIFY, .op OP_DROP,
   .op OP_DUP, .op OP_HASH160, .push pubkey_hash, .op OP_EQUALVERIFY, .op OP_CHECKSIG]

/-- HTLC script with a hash path and a timeout path. -/
def htlc_script (hash_lock : List Nat) (timeout : Int)
    (recipient_pubkey_hash sender_pubkey_hash : List Nat) : Script :=
  [.op OP_IF, .op OP_SHA256, .push hash_lock, .op OP_EQUALVERIFY, .op OP_DUP,
   .op OP_HASH160, .push recipient_pubkey_hash, .op OP_ELSE,
   .push (encode_num timeout), .op OP_CHECKLOCKTIMEVERIFY, .op OP_DROP, .op OP_DUP,
   .op OP_HASH160, .push sender_pubkey_hash, .op OP_ENDIF,
   .op OP_EQUALVERIFY, .op OP_CHECKSIG]

/-! ### Wallets (`bitcoin_implementation.py`)

Python `str` values of this module (hex digests, addresses, dictionary
keys) are modelled as their ASCII byte lists, so `.encode()` is the
identity and f-string key building is list concatenation. -/

/-- ASCII code of one lowercase hex digit. -/
def hexDigit (d : Nat) : Nat := if d < 10 then 48 + d else 87 + d

/-- Lowercase hex rendering of a byte string (Python `bytes.hex()`), as
ASCII codes. -/
def toHexBytes (bs : List Nat) : List Nat :=
  bs.flatMap (fun b => [hexDigit (b / 16), hexDigit (b % 16)])

/-- Decimal digits of `n`, least significant first, with the structural
fuel of `toLEGo` (depth is the digit count, so fuel `n` suffices). -/
def decDigitsGo : Nat → Nat → List Nat
  | _, 0 => []
  | 0, _ + 1 => []
  | f + 1, n + 1 => ((n + 1) % 10 + 48) :: decDigitsGo f ((n + 1) / 10)

/-- ASCII decimal rendering of a natural number (Python `str(int)`). -/
def decAscii (n : Nat) : List Nat :=
  if n = 0 then [48] else (decDigitsGo n n).reverse

/-- ASCII bytes of the string `"pubkey"`. -/
def pubkeyTag : List Nat := [112, 117, 98, 107, 101, 121]

/-- Public key derived from a private key (`Wallet.__init__`):
`sha256(private_key + b'pubkey')`. -/
def derive_public_key (private_key : List Nat) : List Nat :=
  sha256 (private_key ++ pubkeyTag)

/-- Signature check of `Wallet.verify_with_pubkey`: despite its name it
only tests that the signature is 32 bytes long. -/
def verify_with_pubkey (public_key_bytes message signature : List Nat) : Bool :=
  signature.length == 32

/-! ### Transactions and the UTXO set -/

/-- Transaction input: an outpoint reference plus signature data. -/
structure TxInput where
  prev_tx_hash : List Nat
  prev_output_index : Nat
  signature : List Nat := []
  public_key : List Nat := []
deriving DecidableEq, Repr

/-- Transaction output: an amount (satoshis) and a recipient address. -/
structure TxOutput where
  amount : Int
  recipient_address : List Nat
deriving DecidableEq, Repr

/-- A transaction with its timestamp and (hex, ASCII-coded) hash. -/
structure Transaction where
  inputs : List TxInput
  outputs : List TxOutput
  timestamp : Nat
  tx_hash : List Nat := []
deriving DecidableEq, Repr

/-- Python `struct.pack('<I', n)`: 4 little-endian bytes, raising
(modelled `none`) outside 32 bits. -/
def packI (n : Nat) : Option (List Nat) :=
  if n < 4294967296 then some (wordLE n) else none

/-- Python `struct.pack('<Q', n)` on an `int` amount: 8 little-endian
bytes, raising (modelled `none`) outside `[0, 2^64)`. -/
def packQ (n : Int) : Option (List Nat) :=
  if 0 ≤ n ∧ n < 18446744073709551616 then some (word64LE n.toNat) else none

/-- Serialization of one input inside `serialize_for_hashing`: the hash
string's bytes followed by the packed output index. -/
def serializeInput (inp : TxInput) : Option (List Nat) :=
  (packI inp.prev_output_index).map (inp.prev_tx_hash ++ ·)

/-- Serialization of one output inside `serialize_for_hashing`: the
packed amount followed by the address string's bytes. -/
def serializeOutput (out : TxOutput) : Option (List Nat) :=
  (packQ out.amount).map (· ++ out.recipient_address)

/-- Bind-concatenate a list of optional byte strings. -/
def joinBytes : List (Option (List Nat)) → Option (List Nat)
  | [] => some []
  | h :: t => do pure ((← h) ++ (← joinBytes t))

/-- Unsigned serialization of a transaction
(`Transaction.serialize_for_hashing`): timestamp, input count and
inputs, output count and outputs. -/
def serialize_for_hashing (tx : Transaction) : Option (List Nat) :=
  joinBytes
    ([packI tx.timestamp, packI tx.inputs.length] ++
     tx.inputs.map serializeInput ++
     [packI tx.outputs.length] ++
     tx.outputs.map serializeOutput)

/-- Transaction hash (`Transaction.calculate_hash`): hex of the double
SHA-256 of the unsigned serialization. -/
def tx_calculate_hash (tx : Transaction) : Option (List Nat) :=
  (serialize_for_hashing tx).map (fun d => toHexBytes (hash256 d))

/-- Transaction constructor (`__post_init__`): an empty `tx_hash` is
filled with the calculated hash. -/
def mkTransaction (inputs : List TxInput) (outputs : List TxOutput)
    (timestamp : Nat) : Option Transaction :=
  (tx_calculate_hash ⟨inputs, outputs, timestamp, []⟩).map
    (fun h => ⟨inputs, outputs, timestamp, h⟩)

/-- ASCII bytes of `"0" * 64`, the coinbase previous-hash marker. -/
def zeros64 : List Nat := List.replicate 64 48

/-- UTXO set (`UTXOSet.utxos`): a Python dict from `"hash:index"` key
strings to outputs, modelled as an association list in insertion order
with replace-on-update. -/
abbrev UTXOSet := List (List Nat × TxOutput)

/-- Key string `f"{tx_hash}:{output_index}"` of a UTXO. -/
def utxoKey (tx_hash : List Nat) (output_index : Nat) : List Nat :=
  tx_hash ++ [58] ++ decAscii output_index

/-- Python dict assignment: replace in place if present, else append. -/
def dictSet (k : List Nat) (v : TxOutput) : UTXOSet → UTXOSet
  | [] => [(k, v)]
  | (k', v') :: rest => if k' = k then (k, v) :: rest else (k', v') :: dictSet k v rest

/-- Python dict deletion of a present key: drop its (unique) entry. -/
def dictDel (k : List Nat) : UTXOSet → UTXOSet
  | [] => []
  | (k', v') :: rest => if k' = k then rest else (k', v') :: dictDel k rest

/-- Key membership in the UTXO set. -/
def utxoContains (s : UTXOSet) (k : List Nat) : Bool := s.any (·.1 = k)

/-- Register a new UTXO (`UTXOSet.add_utxo`). -/
def add_utxo (s : UTXOSet) (tx_hash : List Nat) (output_index : Nat)
    (output : TxOutput) : UTXOSet :=
  dictSet (utxoKey tx_hash output_index) output s

/-- Remove a spent UTXO (`UTXOSet.remove_utxo`); missing keys are left
alone. -/
def remove_utxo (s : UTXOSet) (tx_hash : List Nat) (output_index : Nat) : UTXOSet :=
  let k := utxoKey tx_hash output_index
  if utxoContains s k then dictDel k s else s

/-- Apply a transaction to the UTXO set
(`UTXOSet.update_with_transaction`): remove the outpoints of the
non-coinbase inputs, then add one UTXO per output under the
transaction's hash. -/
def update_with_transaction (s : UTXOSet) (tx : Transaction) : UTXOSet :=
  let s1 := tx.inputs.foldl
    (fun acc inp =>
      if inp.prev_tx_hash ≠ zeros64 then
        remove_utxo acc inp.prev_tx_hash inp.prev_output_index
      else acc) s
  (tx.outputs.enum.foldl (fun acc p => add_utxo acc tx.tx_hash p.1 p.2) s1)

/-- Total amount held in the UTXO set. -/
def utxoTotal (s : UTXOSet) : Int := (s.map (·.2.amount)).sum

/-! ### Blocks, mining and the genesis block -/

/-- A block, with its difficulty and (hex, ASCII-coded) stored hash. -/
structure Block where
  index : Nat
  timestamp : Nat
  transactions : List Transaction
  previous_hash : List Nat
  nonce : Nat := 0
  hash : List Nat := []
  difficulty : Nat := 4
deriving DecidableEq, Repr

/-- Python `struct.pack('<Q', timestamp)` on a nonnegative int. -/
def packQn (n : Nat) : Option (List Nat) :=
  if n < 18446744073709551616 then some (word64LE n) else none

/-- Serialization of a block for hashing (`Block.serialize`): index,
timestamp, previous-hash string bytes, nonce, difficulty, then the hash
string bytes of each transaction. -/
def serializeBlock (b : Block) : Option (List Nat) :=
  joinBytes
    ([packI b.index, packQn b.timestamp, some b.previous_hash,
      packI b.nonce, packI b.difficulty] ++
     b.transactions.map (fun tx => some tx.tx_hash))

/-- Block hash (`Block.calculate_hash`): hex of the double SHA-256 of the
serialization. -/
def block_calculate_hash (b : Block) : Option (List Nat) :=
  (serializeBlock b).map (fun d => toHexBytes (hash256 d))

/-- Block constructor (`__post_init__`): an empty `hash` is filled with
the calculated hash. No mining happens here. -/
def mkBlock (index : Nat) (timestamp : Nat) (transactions : List Transaction)
    (previous_hash : List Nat) (difficulty : Nat) : Option Block :=
  (block_calculate_hash ⟨index, timestamp, transactions, previous_hash, 0, [], difficulty⟩).map
    (fun h => ⟨index, timestamp, transactions, previous_hash, 0, h, difficulty⟩)

/-- ASCII code of the character `0`. -/
def zeroChar : Nat := 48

/-- Mining loop of `Block.mine_block`: try nonces upward from `attempts`,
recomputing the stored hash each time, until the hex hash starts with
`difficulty` zero characters or the fuel (the safety cap on further
attempts) runs out — in which case the block is returned with its last,
non-conforming hash. -/
def mineGo (b : Block) : Nat → Nat → Option Block
  | attempts, fuel =>
    (block_calculate_hash {b with nonce := attempts}).bind fun h =>
      if h.take b.difficulty = List.replicate b.difficulty zeroChar then
        some {b with nonce := attempts, hash := h}
      else
        match fuel with
        | 0 => some {b with nonce := attempts, hash := h}
        | f + 1 => mineGo b (attempts + 1) f

/-- Safety cap of the mining loop: after `attempts` exceeds ten million
the loop gives up, so at most ten million retries follow the first try. -/
def miningCap : Nat := 10000000

/-- Proof-of-work mining (`Block.mine_block`): optionally override the
difficulty, then search nonces from zero under the safety cap. -/
def mine_block (b : Block) (difficulty : Option Nat) : Option Block :=
  let b' := match difficulty with
    | some d => {b with difficulty := d}
    | none => b
  mineGo b' 0 miningCap

/-- ASCII bytes of the string `"genesis"`. -/
def genesisAddr : List Nat := [103, 101, 110, 101, 115, 105, 115]

/-- The genesis transaction of `Blockchain._create_genesis_block`: no
inputs, one 100-BTC output to `"genesis"`, at the construction-time
timestamp. -/
def genesis_tx (ts : Nat) : Option Transaction :=
  mkTransaction [] [⟨10000000000, genesisAddr⟩] ts

/-- The genesis block of `Blockchain._create_genesis_block`: index 0,
previous hash `"0" * 64`, difficulty 4, holding the genesis transaction —
appended to the chain as constructed, without any mining. -/
def create_genesis_block (tsTx tsBlock : Nat) : Option Block := do
  let tx ← genesis_tx tsTx
  mkBlock 0 tsBlock [tx] zeros64 4

/-- Coinbase transaction (`create_coinbase_transaction`): a single input
from the all-zeros hash at index `0xFFFFFFFF`, paying the reward to the
miner. -/
def create_coinbase_transaction (miner_address : List Nat) (reward : Int)
    (ts : Nat) : Option Transaction :=
  mkTransaction [⟨zeros64, 0xFFFFFFFF, [], []⟩] [⟨reward, miner_address⟩] ts

/-- Block assembly and mining of `Blockchain.mine_pending_transactions`:
coinbase plus the pending transactions, on top of the latest block, mined
with the chain difficulty. -/
def mine_pending_transactions (chain : List Block) (pending : List Transaction)
    (difficulty : Nat) (mining_reward : Int) (miner_address : List Nat)
    (tsCb tsBlock : Nat) : Option Block := do
  let coinbase ← create_coinbase_transaction miner_address mining_reward tsCb
  let latest := (chain.getLastD ⟨0, 0, [], [], 0, [], 0⟩)
  let nb ← mkBlock chain.length tsBlock (coinbase :: pending) latest.hash difficulty
  mine_block nb none

/-! ### The mempool (`transaction_prioritization.py`)

Its transaction ids are plain Python strings with no byte-level role, so
they are Lean `String`s here; the `transactions` dict is an association
list in insertion order, and the `parents`/`children` sets are
duplicate-free lists (`add` appends when absent, `discard` erases). -/

/-- A mempool transaction (`MempoolTransaction`). -/
structure MempoolTransaction where
  tx_id : String
  fee : Int
  size : Int
  parents : List String := []
  children : List String := []
deriving DecidableEq, Repr

/-- Fee per byte (`fee_per_byte`), zero for non-positive sizes. Python
computes this in floating point; it is modelled as the exact rational,
which can only differ on ratios beyond double precision. -/
def fee_per_byte (tx : MempoolTransaction) : ℚ :=
  if tx.size > 0 then (tx.fee : ℚ) / (tx.size : ℚ) else 0

/-- The mempool dict `Mempool.transactions`. -/
abbrev Mempool := List (String × MempoolTransaction)

/-- Python dict assignment on the mempool. -/
def poolSet (k : String) (v : MempoolTransaction) : Mempool → Mempool
  | [] => [(k, v)]
  | (k', v') :: rest => if k' = k then (k, v) :: rest else (k', v') :: poolSet k v rest

/-- Python dict deletion on the mempool (key present: drop its entry). -/
def poolDel (k : String) : Mempool → Mempool
  | [] => []
  | (k', v') :: rest => if k' = k then rest else (k', v') :: poolDel k rest

/-- Dictionary lookup (`Mempool.get_transaction`). -/
def poolGet (p : Mempool) (k : String) : Option MempoolTransaction :=
  (p.find? (·.1 = k)).map (·.2)

/-- In-place mutation of the transaction stored under `k` (the Python
code mutates the stored object's field sets directly). -/
def poolAdjust (k : String) (f : MempoolTransaction → MempoolTransaction) :
    Mempool → Mempool
  | [] => []
  | (k', v') :: rest =>
    if k' = k then (k', f v') :: rest else (k', v') :: poolAdjust k f rest

/-- Python `set.add`: append when absent. -/
def setAdd (l : List String) (x : String) : List String :=
  if x ∈ l then l else l ++ [x]

/-- Add a transaction (`Mempool.add_transaction`): store it, then record
it as a child of each of its parents that is present in the pool. -/
def add_transaction (p : Mempool) (tx : MempoolTransaction) : Mempool :=
  tx.parents.foldl
    (fun acc pid =>
      if (poolGet acc pid).isSome then
        poolAdjust pid (fun t => {t with children := setAdd t.children tx.tx_id}) acc
      else acc)
    (poolSet tx.tx_id tx p)

/-- Remove a transaction (`Mempool.remove_transaction`): discard its id
from its parents' child sets and from its children's parent sets, then
delete it; absent ids are a no-op. -/
def remove_transaction (p : Mempool) (tx_id : String) : Mempool :=
  match poolGet p tx_id with
  | none => p
  | some tx =>
    let p1 := tx.parents.foldl
      (fun acc pid =>
        if (poolGet acc pid).isSome then
          poolAdjust pid (fun t => {t with children := t.children.erase tx_id}) acc
        else acc) p
    let p2 := tx.children.foldl
      (fun acc cid =>
        if (poolGet acc cid).isSome then
          poolAdjust cid (fun t => {t with parents := t.parents.erase tx_id}) acc
        else acc) p1
    poolDel tx_id p2

/-- One mempool operation, for reasoning about call sequences. -/
inductive PoolOp where
  | add : MempoolTransaction → PoolOp
  | remove : String → PoolOp
deriving DecidableEq, Repr

/-- Apply one mempool operation. -/
def applyOp (p : Mempool) : PoolOp → Mempool
  | .add tx => add_transaction p tx
  | .remove i => remove_transaction p i

/-- Apply a sequence of mempool operations. -/
def applyOps (ops : List PoolOp) (p : Mempool) : Mempool := ops.foldl applyOp p

/-- Bidirectional edge consistency of the pool: for every two stored
transactions `t` and `c`, `c` is recorded as a child of `t` exactly when
`t` is recorded as a parent of `c`. -/
def bidirConsistent (p : Mempool) : Bool :=
  p.all fun et => p.all fun ec =>
    et.2.children.contains ec.2.tx_id == ec.2.parents.contains et.2.tx_id

/-! ### The DP knapsack block builder (`dp_knapsack_selection`) -/

/-- Stable insertion, descending by fee per byte (Python
`sorted(..., key=fee_per_byte, reverse=True)` is a stable descending
sort). -/
def insertFpbDesc (x : MempoolTransaction) :
    List MempoolTransaction → List MempoolTransaction
  | [] => [x]
  | y :: t => if fee_per_byte x > fee_per_byte y then x :: y :: t
              else y :: insertFpbDesc x t

/-- Stable descending sort by fee per byte. -/
def sortFpbDesc : List MempoolTransaction → List MempoolTransaction
  | [] => []
  | x :: t => insertFpbDesc x (sortFpbDesc t)

/-- The DP table value `dp[i][w]` of `dp_knapsack_selection`, with the
first `i` transactions given in reverse order (`tx` is item `i`) and the
scaled weight budget `w`: the best fee using those items within `w`,
where each item weighs `size // 1000`. -/
def dpT : List MempoolTransaction → Int → Int
  | [], _ => 0
  | tx :: rest, w =>
    let s := Int.fdiv tx.size 1000
    max (dpT rest w) (if s ≤ w then dpT rest (w - s) + tx.fee else dpT rest w)

/-- Backtracking loop of `dp_knapsack_selection`: walk items from the
last to the first, selecting item `i` whenever `dp[i][w] ≠ dp[i-1][w]`,
accumulating ids (in visit order) and the sum of the transactions'
actual, unscaled sizes. -/
def dpBacktrack : List MempoolTransaction → Int → List String × Int
  | [], _ => ([], 0)
  | tx :: rest, w =>
    if dpT (tx :: rest) w ≠ dpT rest w then
      let r := dpBacktrack rest (w - Int.fdiv tx.size 1000)
      (tx.tx_id :: r.1, r.2 + tx.size)
    else dpBacktrack rest w

/-- The DP knapsack selection (`dp_knapsack_selection`): keep only
parent-free transactions (at most 100, by fee rate), scale every size
down by 1000, solve the 0/1 knapsack on the scaled sizes against
`max_block_size // 1000`, and report the chosen ids with the DP fee and
the sum of the actual sizes. -/
def dp_knapsack_selection (pool : Mempool) (max_block_size : Int) :
    List String × Int × Int :=
  let all0 := (pool.map (·.2)).filter (fun tx => tx.parents = [])
  let all_txs := if all0.length > 100 then (sortFpbDesc all0).take 100 else all0
  let max_size_scaled := Int.fdiv max_block_size 1000
  let r := dpBacktrack all_txs.reverse max_size_scaled
  (r.1, dpT all_txs.reverse max_size_scaled, r.2)

/-! ### Supporting lemmas -/

/-- A SHA-256 digest is 32 bytes long. -/
theorem sha256_length (msg : List Nat) : (sha256 msg).length = 32 := by
  simp [sha256, wordBE]

/-- A signature produced by `sign_message` is 32 bytes long. -/
theorem sign_message_length (priv msg : List Nat) : (sign_message priv msg).length = 32 := by
  simp [sign_message, hmacSha256, sha256_length]

/-- A derived public key is 32 bytes long. -/
theorem derive_public_key_length (priv : List Nat) : (derive_public_key priv).length = 32 := by
  simp [derive_public_key, sha256_length]

end BtcSpec

namespace BtcSpec

/-! ### Claim C1 — the signature verifier -/

/-- C1, counterexample. The claim says `verify_signature` returns false
for a signature produced under a different key. Taking the all-zeros and
the all-ones 32-byte private keys — which derive to different public
keys — a signature by the second key over the empty message is
nevertheless accepted against the first key's public key, because
`verify_signature` only checks the two lengths. -/
theorem c1_counterexample :
    derive_public_key (List.replicate 32 0) ≠ derive_public_key (List.replicate 32 1) ∧
    verify_signature (derive_public_key (List.replicate 32 0)) []
      (sign_message (List.replicate 32 1) []) = true := by
  constructor
  · decide
  · decide

/-- C1, amended. `verify_signature pub msg sig` returns true exactly when
the signature and the public key are each 32 bytes, and
`Wallet.verify_with_pubkey` returns true exactly when the signature is 32
bytes — independently of the message and of which key produced the
signature. In particular any honestly produced signature verifies, but so
does a signature under any other key. -/
theorem c1_amended (pub msg sig priv : List Nat) :
    (verify_signature pub msg sig = true ↔ sig.length = 32 ∧ pub.length = 32) ∧
    (verify_with_pubkey pub msg sig = true ↔ sig.length = 32) ∧
    verify_signature (derive_public_key priv) msg (sign_message priv msg) = true := by
  refine ⟨by simp [verify_signature], by simp [verify_with_pubkey], ?_⟩
  simp [verify_signature, sign_message_length, derive_public_key_length]

/-! ### Claim C7 — `execute` and the interpreter's stacks -/

/-- C7, counterexample. The claim says every `execute` call starts from
empty stacks, so a second call would be independent of the first; but
executing the empty script on an interpreter whose previous `execute`
call pushed `0x01` returns true, while on a fresh interpreter it
returns false — the stacks persist across calls. -/
theorem c7_counterexample :
    (execute {} (execute {} initState [ScriptItem.push [1]]).1 []).2 = true ∧
    (execute {} initState []).2 = false := by
  constructor
  · decide
  · decide

/-- C7, amended. Only `__init__` creates the stacks empty; `execute`
walks the script over the interpreter's current state: the empty script
returns the state unchanged and reports the truth value of the existing
top of stack, and a push script pushes onto the existing stack. -/
theorem c7_amended (ctx : TxContext) (st : VMState) (b : List Nat) :
    execute ctx st [] =
      (st, match st.stack with | [] => false | top :: _ => castToBool top) ∧
    execute ctx st [ScriptItem.push b] =
      (⟨b :: st.stack, st.alt_stack⟩, castToBool b) := by
  obtain ⟨stk, alt⟩ := st
  cases stk <;> simp [execute, runItems, execItem]

/-! ### Claim C8 — bytes 0x01–0x60 as opcode items -/

/-- C8, counterexample. The claim says a bare instruction byte such as
0x01 appearing as an opcode item always fails, making `execute` return
false; but the interpreter's constants branch spans all of 0x00–0x60, so
opcode 0x01 pushes `encode_num (1 - 0x51 + 1) = encode_num (-79)` — a
truthy byte string — and the script succeeds. -/
theorem c8_counterexample :
    (execute {} initState [ScriptItem.op 0x01]).2 = true := by decide

/-- C8, amended. Every opcode byte from 0x01 to 0x60 is handled by the
constants branch (`OP_0 <= opcode <= OP_16`): it never fails, pushing
`encode_num (opcode - 0x51 + 1)` — for 0x01–0x50 a negative or zero
script number, not the byte-as-push of real Bitcoin. Only unhandled
opcodes above 0x60 reach the unknown-opcode failure. -/
theorem c8_amended (ctx : TxContext) (st : VMState) (o : Nat)
    (h1 : 1 ≤ o) (h2 : o ≤ 96) :
    execOp ctx st o =
      ({st with stack := encode_num ((o : Int) - OP_1 + 1) :: st.stack}, none) := by
  unfold execOp
  rw [if_pos (show o ≤ OP_16 from h2)]
  rw [if_neg (show ¬o = OP_0 by simp [OP_0]; omega)]

/-- C8, witness for the amended theorem at opcode 0x01. -/
theorem c8_amended_witness :
    execOp {} initState 1 =
      ({initState with stack := encode_num ((1 : Int) - OP_1 + 1) :: initState.stack},
        none) :=
  c8_amended {} initState 1 (by decide) (by decide)

/-! ### Claim C3 — the selection strategies and the size budget -/

/-- C3, failing input for `dp_knapsack_selection`. With two parent-free
transactions of 999 bytes each and a 1000-byte budget, the DP checks the
knapsack constraint on the 1000-scaled sizes (`999 // 1000 = 0`), selects
both, and returns an actual total size of 1998 bytes — exceeding the
budget the module's problem statement requires it to respect. -/
theorem c3_dp_exceeds_budget :
    dp_knapsack_selection
      [("tx1", ⟨"tx1", 5, 999, [], []⟩), ("tx2", ⟨"tx2", 7, 999, [], []⟩)] 1000 =
      (["tx2", "tx1"], 12, 1998) ∧ (1000 : Int) < 1998 := by
  constructor
  · decide
  · decide

/-! ### Claim C2 — serialize/deserialize round trip -/

/-- Scripts whose wire form parses back item for item: every opcode item
is a byte from `OP_PUSHDATA4` (0x4e) up, so the parser does not read it
as a push header, and every push payload fits the `OP_PUSHDATA2` length
field. -/
def wellFormedScript (s : Script) : Bool :=
  s.all fun it =>
    match it with
    | .op o => decide (0x4e ≤ o) && decide (o ≤ 255)
    | .push b => decide (b.length ≤ 0xffff)

/-- Deserializing a serialized well-formed script with any sufficient
parser fuel recovers the script item for item. -/
theorem deserializeGo_serialize (s : Script) :
    ∀ (d : List Nat) (n : Nat), wellFormedScript s = true → serializeScript s = some d →
      d.length ≤ n → deserializeGo n d = some s := by
  induction s with
  | nil =>
    intro d n _ h _
    unfold serializeScript at h
    rw [Option.some_inj] at h
    subst h
    cases n <;> rfl
  | cons it rest ih =>
    intro d n hwf hser hn
    simp only [wellFormedScript, List.all_cons, Bool.and_eq_true] at hwf
    obtain ⟨hwf1, hwf2⟩ := hwf
    have hwf2' : wellFormedScript rest = true := hwf2
    simp only [serializeScript, Option.bind_eq_bind, Option.bind_eq_some, Option.pure_def,
      Option.some_inj] at hser
    obtain ⟨h, hh, t, ht, hd⟩ := hser
    subst hd
    cases it with
    | op o =>
      simp only [decide_eq_true_eq, Bool.and_eq_true] at hwf1
      simp only [serializeItem] at hh
      rw [if_pos hwf1.2, Option.some_inj] at hh
      subst hh
      match n, hn with
      | n + 1, hn =>
        show deserializeGo (n + 1) (o :: t) = _
        unfold deserializeGo
        rw [if_neg (by omega), if_neg (by omega), if_neg (by omega),
          ih t n hwf2' ht (by simpa using hn)]
        rfl
    | push b =>
      simp only [decide_eq_true_eq] at hwf1
      simp only [serializeItem] at hh
      by_cases h76 : b.length < 76
      · rw [if_pos h76, Option.some_inj] at hh
        subst hh
        match n, hn with
        | n + 1, hn =>
          show deserializeGo (n + 1) (b.length :: (b ++ t)) = _
          unfold deserializeGo
          rw [if_pos (by omega), List.take_left, List.drop_left,
            ih t n hwf2' ht (by simp at hn ⊢; omega)]
          rfl
      · by_cases h255 : b.length ≤ 0xff
        · rw [if_neg h76, if_pos h255, Option.some_inj] at hh
          subst hh
          match n, hn with
          | n + 1, hn =>
            show deserializeGo (n + 1) (0x4c :: b.length :: (b ++ t)) = _
            unfold deserializeGo
            rw [if_neg (by omega), if_pos rfl]
            dsimp only
            rw [List.take_left, List.drop_left,
              ih t n hwf2' ht (by simp at hn ⊢; omega)]
            rfl
        · rw [if_neg h76, if_neg h255, if_pos hwf1, Option.some_inj] at hh
          subst hh
          match n, hn with
          | n + 1, hn =>
            show deserializeGo (n + 1)
              (0x4d :: b.length % 256 :: b.length / 256 :: (b ++ t)) = _
            unfold deserializeGo
            rw [if_neg (by omega), if_neg (by omega), if_pos rfl]
            dsimp only
            rw [show b.length % 256 + 256 * (b.length / 256) = b.length from
              Nat.mod_add_div _ _]
            rw [List.take_left, List.drop_left,
              ih t n hwf2' ht (by simp at hn ⊢; omega)]
            rfl

/-- C2, amended. `deserialize ∘ serialize` is the identity, item for
item, on every well-formed script whose opcode items are all bytes at
least 0x4e and whose push payloads are at most 0xffff bytes — this covers
the P2PKH, P2SH, multisig-lock, CLTV, CSV and HTLC templates. Scripts
holding an `OP_0` opcode item (P2WPKH, P2WSH, the multisig unlock) fall
outside: 0x00 parses back as an empty push, not as the opcode. -/
theorem c2_amended (s : Script) (d : List Nat) (h1 : wellFormedScript s = true)
    (h2 : serializeScript s = some d) : deserialize d = some s :=
  deserializeGo_serialize s d d.length h1 h2 le_rfl

/-- C2, witness for the amended theorem on a concrete P2PKH script. -/
theorem c2_amended_witness :
    deserialize ((serializeScript (p2pkh_script_pubkey (List.replicate 20 0))).getD []) =
      some (p2pkh_script_pubkey (List.replicate 20 0)) :=
  c2_amended _ _ (by decide) (by decide)

/-- C2, counterexample. The P2WPKH template — part of the claim's
catalog — does not round-trip: its `OP_0` opcode item serializes to the
byte 0x00, which the parser reads as a zero-length direct push, so the
script comes back with an empty push payload in place of the opcode. -/
theorem c2_counterexample :
    (serializeScript (p2wpkh_script_pubkey (List.replicate 20 0))).bind deserialize =
      some [ScriptItem.push [], ScriptItem.push (List.replicate 20 0)] ∧
    ScriptItem.push ([] : List Nat) ≠ ScriptItem.op OP_0 := by
  constructor
  · decide
  · decide

/-! ### Claim C4 — accepted blocks and the difficulty target -/

/-- The stored hash plays no role in a block's serialization, so
recomputing the hash of a block whose hash field was just filled in gives
the same digest. -/
theorem block_calculate_hash_hash_irrel (b : Block) (n : Nat) (h : List Nat) :
    block_calculate_hash {b with nonce := n, hash := h} =
      block_calculate_hash {b with nonce := n} := rfl

/-- Any block returned by the mining loop stores the hash of its own
serialization, and either that hash meets the difficulty target or the
loop ran out of fuel with the nonce at the last attempt. -/
theorem mineGo_spec (b : Block) :
    ∀ (f a : Nat) (b' : Block), mineGo b a f = some b' →
      block_calculate_hash b' = some b'.hash ∧ b'.difficulty = b.difficulty ∧
      (b'.hash.take b'.difficulty = List.replicate b'.difficulty zeroChar ∨
        b'.nonce = a + f) := by
  intro f
  induction f with
  | zero =>
    intro a b' h
    unfold mineGo at h
    rcases heq : block_calculate_hash {b with nonce := a} with _ | hsh
    · rw [heq, Option.none_bind] at h; exact absurd h (by simp)
    · rw [heq, Option.some_bind] at h
      split at h <;> rename_i hpre <;>
      · rw [Option.some_inj] at h
        subst h
        refine ⟨?_, rfl, ?_⟩
        · rw [block_calculate_hash_hash_irrel, heq]
        · first
          | exact Or.inl hpre
          | exact Or.inr rfl
  | succ f ih =>
    intro a b' h
    unfold mineGo at h
    rcases heq : block_calculate_hash {b with nonce := a} with _ | hsh
    · rw [heq, Option.none_bind] at h; exact absurd h (by simp)
    · rw [heq, Option.some_bind] at h
      split at h
      · rename_i hpre
        rw [Option.some_inj] at h
        subst h
        refine ⟨?_, rfl, Or.inl hpre⟩
        rw [block_calculate_hash_hash_irrel, heq]
      · rcases ih (a + 1) b' h with ⟨h1, h2, h3⟩
        refine ⟨h1, h2, ?_⟩
        rcases h3 with h3 | h3
        · exact Or.inl h3
        · exact Or.inr (by omega)

/-- C4, amended. A block returned by `mine_block` (hence every block
appended by `mine_pending_transactions`) stores
`hex(double_sha256(serialize(B)))` as its hash, and that hash starts with
`difficulty` zero hex characters unless the safety cap stopped the search
at nonce 10,000,000 — in which case the stored hash need not meet the
target. The genesis block also stores the hash of its own serialization,
but it is built without any mining, so nothing makes it meet the
difficulty. -/
theorem c4_amended :
    (∀ b d b', mine_block b d = some b' →
      block_calculate_hash b' = some b'.hash ∧
      (b'.hash.take b'.difficulty = List.replicate b'.difficulty zeroChar ∨
        b'.nonce = miningCap)) ∧
    (∀ tsTx tsBlock g, create_genesis_block tsTx tsBlock = some g →
      block_calculate_hash g = some g.hash) := by
  constructor
  · intro b d b' h
    unfold mine_block at h
    rcases mineGo_spec _ miningCap 0 b' h with ⟨h1, _, h3⟩
    refine ⟨h1, ?_⟩
    simpa using h3
  · intro tsTx tsB g h
    unfold create_genesis_block at h
    simp only [Option.bind_eq_bind, Option.bind_eq_some] at h
    obtain ⟨tx, _, h⟩ := h
    unfold mkBlock at h
    rw [Option.map_eq_some'] at h
    obtain ⟨hsh, hcalc, hg⟩ := h
    subst hg
    rw [show block_calculate_hash ⟨0, tsB, [tx], zeros64, 0, hsh, 4⟩ =
      block_calculate_hash ⟨0, tsB, [tx], zeros64, 0, [], 4⟩ from rfl]
    exact hcalc

/-- C4, witness for the amended theorem: a difficulty-0 block is mined on
the first nonce, and the returned block's stored hash is the hash of its
serialization. -/
theorem c4_amended_witness :
    block_calculate_hash
        ((mine_block ⟨0, 0, [], [], 0, [], 0⟩ none).getD ⟨0, 0, [], [], 0, [], 0⟩) =
      some ((mine_block ⟨0, 0, [], [], 0, [], 0⟩ none).getD ⟨0, 0, [], [], 0, [], 0⟩).hash :=
  (c4_amended.1 ⟨0, 0, [], [], 0, [], 0⟩ none _ (by decide)).1

/-- C4, counterexample. The genesis block created at `Blockchain`
construction (modelled at construction timestamp 1,700,000,000 for both
the genesis transaction and the block) is appended to the chain without
mining: its stored hash starts with `ebff`, not with the four zero hex
characters the claim requires of every accepted block. -/
theorem c4_counterexample :
    (create_genesis_block 1700000000 1700000000).map
      (fun b => b.hash.take b.difficulty == List.replicate b.difficulty zeroChar) =
      some false := by decide

/-! ### Claim C6 — M-of-N multisig runs -/

/-- C6, counterexample. In the 2-of-3 lock over three 32-byte keys, the
unlock `(OP_0, sig2, sig1)` — the claim's out-of-order example, which it
says the VM rejects — still succeeds, because `verify_signature` accepts
any 32-byte signature against any 32-byte key, making the order of the
signatures irrelevant. -/
theorem c6_counterexample :
    (execute {}
      (execute {} initState
        (multisig_script_sig [List.replicate 32 8, List.replicate 32 9])).1
      (multisig_script_pubkey 2
        [List.replicate 32 1, List.replicate 32 2, List.replicate 32 3])).2 = true := by
  decide


end BtcSpec

namespace BtcSpec

/-! ### Claim C9 — script-number round trips -/

/-- Any fuel at least the value gives the byte-emitting loop the same
digits (its recursion depth is the digit count). -/
theorem toLEGo_fuel : ∀ (m f g : Nat), m ≤ f → m ≤ g → toLEGo f m = toLEGo g m := by
  intro m
  induction m using Nat.strong_induction_on with
  | _ m ih =>
    intro f g hf hg
    cases m with
    | zero => cases f <;> cases g <;> rfl
    | succ k =>
      cases f with
      | zero => omega
      | succ f' =>
        cases g with
        | zero => omega
        | succ g' =>
          show (k + 1) % 256 :: toLEGo f' ((k + 1) / 256) =
            (k + 1) % 256 :: toLEGo g' ((k + 1) / 256)
          have hq : (k + 1) / 256 ≤ k := by
            have := Nat.div_lt_self (Nat.succ_pos k) (by omega : 1 < 256)
            omega
          rw [ih ((k + 1) / 256) (by omega) f' g' (by omega) (by omega)]

/-- The byte-emitting loop satisfies the source's loop recurrence. -/
theorem toLE_eq (m : Nat) : toLE m = if m = 0 then [] else m % 256 :: toLE (m / 256) := by
  cases m with
  | zero => rfl
  | succ k =>
    rw [if_neg (Nat.succ_ne_zero k)]
    show (k + 1) % 256 :: toLEGo k ((k + 1) / 256) =
      (k + 1) % 256 :: toLEGo ((k + 1) / 256) ((k + 1) / 256)
    have hq : (k + 1) / 256 ≤ k := by
      have := Nat.div_lt_self (Nat.succ_pos k) (by omega : 1 < 256)
      omega
    rw [toLEGo_fuel ((k + 1) / 256) k ((k + 1) / 256) hq le_rfl]

/-- Reading back the little-endian digits recovers the value. -/
theorem fromLE_toLE (m : Nat) : fromLE (toLE m) = m := by
  induction m using Nat.strong_induction_on with
  | _ m ih =>
    rw [toLE_eq]
    by_cases h : m = 0
    · subst h; rfl
    · rw [if_neg h]
      show m % 256 + 256 * fromLE (toLE (m / 256)) = m
      rw [ih (m / 256) (Nat.div_lt_self (Nat.pos_of_ne_zero h) (by omega))]
      exact Nat.mod_add_div m 256

/-- A positive value has at least one digit. -/
theorem toLE_ne_nil (m : Nat) (h : m ≠ 0) : toLE m ≠ [] := by
  rw [toLE_eq, if_neg h]
  simp

/-- Every emitted digit is a byte. -/
theorem toLE_mem_lt (m : Nat) : ∀ x ∈ toLE m, x < 256 := by
  induction m using Nat.strong_induction_on with
  | _ m ih =>
    rw [toLE_eq]
    by_cases h : m = 0
    · simp [h]
    · rw [if_neg h]
      intro x hx
      rcases List.mem_cons.mp hx with h1 | h2
      · subst h1; exact Nat.mod_lt _ (by omega)
      · exact ih (m / 256) (Nat.div_lt_self (Nat.pos_of_ne_zero h) (by omega)) x h2

/-- The default of `getLastD` is irrelevant on a non-empty list. -/
theorem getLastD_irrel (l : List Nat) (h : l ≠ []) (d d' : Nat) :
    l.getLastD d = l.getLastD d' := by
  rw [List.getLastD_eq_getLast?, List.getLastD_eq_getLast?, List.getLast?_eq_getLast l h]
  rfl

/-- The last element of `l ++ [a]` is `a`. -/
theorem getLastD_concat' (l : List Nat) (a d : Nat) : (l ++ [a]).getLastD d = a := by
  rw [List.getLastD_eq_getLast?, List.getLast?_concat]
  rfl

/-- A non-empty list is its front followed by its last element. -/
theorem dropLast_concat_getLastD (l : List Nat) (h : l ≠ []) (d : Nat) :
    l.dropLast ++ [l.getLastD d] = l := by
  rw [List.getLastD_eq_getLast?, List.getLast?_eq_getLast l h]
  exact List.dropLast_append_getLast h

/-- The last element of a non-empty list is an element. -/
theorem getLastD_mem (l : List Nat) (h : l ≠ []) (d : Nat) : l.getLastD d ∈ l := by
  rw [List.getLastD_eq_getLast?, List.getLast?_eq_getLast l h]
  exact List.getLast_mem h

/-- The top digit of a positive value is non-zero. -/
theorem toLE_getLastD (m : Nat) (h : m ≠ 0) : (toLE m).getLastD 0 ≠ 0 := by
  induction m using Nat.strong_induction_on with
  | _ m ih =>
    rw [toLE_eq, if_neg h]
    by_cases hq : m / 256 = 0
    · rw [hq]
      show ([] : List Nat).getLastD (m % 256) ≠ 0
      have hm : m % 256 = m := by omega
      show m % 256 ≠ 0
      omega
    · have hlt : m / 256 < m := Nat.div_lt_self (Nat.pos_of_ne_zero h) (by omega)
      have hne := toLE_ne_nil (m / 256) hq
      rw [List.getLastD_cons, getLastD_irrel _ hne _ 0]
      exact ih (m / 256) hlt hq

/-- A byte string whose last byte is non-zero has a positive value. -/
theorem fromLE_pos (l : List Nat) (h : l ≠ []) (hl : l.getLastD 0 ≠ 0) : 0 < fromLE l := by
  induction l with
  | nil => simp at h
  | cons a t ih =>
    cases t with
    | nil =>
      have ha : a ≠ 0 := hl
      show 0 < a + 256 * fromLE []
      show 0 < a + 256 * 0
      omega
    | cons b t' =>
      have hgl : (b :: t').getLastD 0 ≠ 0 := by
        rw [getLastD_irrel (b :: t') (by simp) 0 a]
        exact hl
      have hpos := ih (by simp) hgl
      show 0 < a + 256 * fromLE (b :: t')
      omega

/-- Appending one byte adds its value at the top position. -/
theorem fromLE_append (l : List Nat) (a : Nat) :
    fromLE (l ++ [a]) = fromLE l + a * 256 ^ l.length := by
  induction l with
  | nil => show a + 256 * fromLE [] = 0 + a * 1; show a + 256 * 0 = 0 + a * 1; ring
  | cons b t ih =>
    show b + 256 * fromLE (t ++ [a]) = b + 256 * fromLE t + a * 256 ^ (t.length + 1)
    rw [ih]; ring

/-- Re-emitting the digits of a byte string's value recovers the string,
as long as its top byte is non-zero. -/
theorem toLE_fromLE (l : List Nat) (hlt : ∀ x ∈ l, x < 256) (hne : l ≠ [])
    (hlast : l.getLastD 0 ≠ 0) : toLE (fromLE l) = l := by
  induction l with
  | nil => simp at hne
  | cons a t ih =>
    cases t with
    | nil =>
      have ha : a < 256 := hlt a (by simp)
      have ha0 : a ≠ 0 := hlast
      show toLE (a + 256 * fromLE []) = [a]
      show toLE (a + 256 * 0) = [a]
      rw [Nat.mul_zero, Nat.add_zero, toLE_eq, if_neg ha0, Nat.mod_eq_of_lt ha,
        Nat.div_eq_of_lt ha]
      rfl
    | cons b t' =>
      have ha : a < 256 := hlt a (by simp)
      have hgl : (b :: t').getLastD 0 ≠ 0 := by
        rw [getLastD_irrel (b :: t') (by simp) 0 a]
        exact hlast
      have hR : 0 < fromLE (b :: t') := fromLE_pos _ (by simp) hgl
      show toLE (a + 256 * fromLE (b :: t')) = a :: b :: t'
      rw [toLE_eq, if_neg (by omega), Nat.add_mul_mod_self_left, Nat.mod_eq_of_lt ha,
        Nat.add_mul_div_left a _ (by omega : 0 < 256), Nat.div_eq_of_lt ha, Nat.zero_add,
        ih (fun x hx => hlt x (List.mem_cons_of_mem a hx)) (by simp) hgl]

/-- Valid script-number byte strings, as the claim describes them: all
entries are bytes, and a trailing `0x00`/`0x80` only ever appears as the
sign byte forced by a top magnitude byte with its high bit set. -/
def validScriptNum (b : List Nat) : Bool :=
  b.all (fun x => decide (x < 256)) &&
  (b.isEmpty ||
    (if b.getLastD 0 = 0 ∨ b.getLastD 0 = 128 then
      decide (2 ≤ b.length) && decide (128 ≤ b.dropLast.getLastD 0)
    else true))

/-- Decoding inverts encoding on every integer. -/
theorem decode_encode_num (n : Int) : decode_num (encode_num n) = n := by
  by_cases hn : n = 0
  · subst hn; rfl
  · have hm : n.natAbs ≠ 0 := by simpa using hn
    have hne : toLE n.natAbs ≠ [] := toLE_ne_nil _ hm
    have hlast : (toLE n.natAbs).getLastD 0 ≠ 0 := toLE_getLastD _ hm
    have hval : fromLE (toLE n.natAbs) = n.natAbs := fromLE_toLE _
    have hlast_lt : (toLE n.natAbs).getLastD 0 < 256 :=
      toLE_mem_lt _ _ (getLastD_mem _ hne _)
    unfold encode_num
    rw [if_neg hn]
    by_cases hhi : 128 ≤ (toLE n.natAbs).getLastD 0
    · rw [if_pos hhi]
      by_cases hneg : n < 0
      · rw [if_pos hneg]
        unfold decode_num
        rw [if_neg (by simp), getLastD_concat', if_pos (by omega : (128 : Nat) ≤ 128),
          List.dropLast_concat, show (128 : Nat) % 128 = 0 from rfl, fromLE_append, hval]
        simp only [Nat.zero_mul, Nat.add_zero]
        omega
      · rw [if_neg hneg]
        unfold decode_num
        rw [if_neg (by simp), getLastD_concat', if_neg (by omega), fromLE_append, hval]
        omega
    · rw [if_neg hhi]
      by_cases hneg : n < 0
      · rw [if_pos hneg]
        unfold decode_num
        rw [if_neg (by simp), getLastD_concat',
          if_pos (by omega : 128 ≤ (toLE n.natAbs).getLastD 0 + 128),
          List.dropLast_concat]
        rw [show ((toLE n.natAbs).getLastD 0 + 128) % 128 = (toLE n.natAbs).getLastD 0 by
          omega]
        rw [dropLast_concat_getLastD _ hne, hval]
        omega
      · rw [if_neg hneg]
        unfold decode_num
        rw [if_neg hne, if_neg hhi, hval]
        omega

end BtcSpec

namespace BtcSpec

/-- Unpacking of the validity predicate: all entries are bytes, and a
trailing `0x00`/`0x80` forces a preceding high-bit byte. -/
theorem validScriptNum_parts (b : List Nat) (h : validScriptNum b = true) :
    (∀ x ∈ b, x < 256) ∧
    (b ≠ [] → b.getLastD 0 = 0 ∨ b.getLastD 0 = 128 →
      2 ≤ b.length ∧ 128 ≤ b.dropLast.getLastD 0) := by
  unfold validScriptNum at h
  rw [Bool.and_eq_true, Bool.or_eq_true] at h
  obtain ⟨h1, h2⟩ := h
  refine ⟨fun x hx => of_decide_eq_true (List.all_eq_true.mp h1 x hx), ?_⟩
  intro hb hcond
  rcases h2 with h2 | h2
  · exact absurd (List.isEmpty_iff.mp h2) hb
  · rw [if_pos hcond, Bool.and_eq_true] at h2
    exact ⟨of_decide_eq_true h2.1, of_decide_eq_true h2.2⟩

/-- Encoding inverts decoding on every valid script-number byte string. -/
theorem encode_decode_num (b : List Nat) (h : validScriptNum b = true) :
    encode_num (decode_num b) = b := by
  obtain ⟨hall, hsign⟩ := validScriptNum_parts b h
  by_cases hb : b = []
  · subst hb; rfl
  · have hL : b.getLastD 0 < 256 := hall _ (getLastD_mem _ hb _)
    unfold decode_num
    rw [if_neg hb]
    by_cases hhi : 128 ≤ b.getLastD 0
    · rw [if_pos hhi]
      by_cases h128 : b.getLastD 0 = 128
      · obtain ⟨hlen2, hpen⟩ := hsign hb (Or.inr h128)
        have hdne : b.dropLast ≠ [] := by
          intro hc
          have := congrArg List.length hc
          rw [List.length_dropLast] at this
          simp at this
          omega
        have hpen0 : b.dropLast.getLastD 0 ≠ 0 := by omega
        have hfpos : 0 < fromLE b.dropLast := fromLE_pos _ hdne hpen0
        rw [h128, show (128 : Nat) % 128 = 0 from rfl, fromLE_append]
        simp only [Nat.zero_mul, Nat.add_zero]
        unfold encode_num
        rw [if_neg (by omega : ¬(-(fromLE b.dropLast : Int)) = 0)]
        rw [show (-(fromLE b.dropLast : Int)).natAbs = fromLE b.dropLast by simp]
        rw [toLE_fromLE _ (fun x hx => hall x (List.dropLast_subset b hx)) hdne hpen0]
        rw [if_pos hpen, if_pos (by omega : -(fromLE b.dropLast : Int) < 0)]
        conv_rhs => rw [← dropLast_concat_getLastD b hb 0]
        rw [h128]
      · have hmodeq : b.getLastD 0 % 128 = b.getLastD 0 - 128 := by omega
        have hne0 : b.getLastD 0 % 128 ≠ 0 := by omega
        have hclast : (b.dropLast ++ [b.getLastD 0 % 128]).getLastD 0 ≠ 0 := by
          rw [getLastD_concat']
          exact hne0
        have hcne : b.dropLast ++ [b.getLastD 0 % 128] ≠ [] := by simp
        have hclt : ∀ x ∈ b.dropLast ++ [b.getLastD 0 % 128], x < 256 := by
          intro x hx
          rcases List.mem_append.mp hx with hx | hx
          · exact hall x (List.dropLast_subset b hx)
          · rw [List.mem_singleton] at hx
            omega
        have hfpos := fromLE_pos _ hcne hclast
        unfold encode_num
        rw [if_neg (by omega :
          ¬(-(fromLE (b.dropLast ++ [b.getLastD 0 % 128]) : Int)) = 0)]
        rw [show (-(fromLE (b.dropLast ++ [b.getLastD 0 % 128]) : Int)).natAbs =
          fromLE (b.dropLast ++ [b.getLastD 0 % 128]) by simp]
        rw [toLE_fromLE _ hclt hcne hclast, getLastD_concat']
        rw [if_neg (by omega : ¬128 ≤ b.getLastD 0 % 128)]
        rw [if_pos (by omega :
          -(fromLE (b.dropLast ++ [b.getLastD 0 % 128]) : Int) < 0)]
        rw [List.dropLast_concat]
        rw [show b.getLastD 0 % 128 + 128 = b.getLastD 0 by omega]
        exact dropLast_concat_getLastD _ hb 0
    · rw [if_neg hhi]
      by_cases h0 : b.getLastD 0 = 0
      · obtain ⟨hlen2, hpen⟩ := hsign hb (Or.inl h0)
        have hdne : b.dropLast ≠ [] := by
          intro hc
          have := congrArg List.length hc
          rw [List.length_dropLast] at this
          simp at this
          omega
        have hpen0 : b.dropLast.getLastD 0 ≠ 0 := by omega
        have hfpos : 0 < fromLE b.dropLast := fromLE_pos _ hdne hpen0
        have hfb : fromLE b = fromLE b.dropLast := by
          conv_lhs => rw [← dropLast_concat_getLastD b hb 0]
          rw [h0, fromLE_append]
          simp
        rw [hfb]
        unfold encode_num
        rw [if_neg (by omega : ¬((fromLE b.dropLast : Int)) = 0)]
        rw [show ((fromLE b.dropLast : Int)).natAbs = fromLE b.dropLast by simp]
        rw [toLE_fromLE _ (fun x hx => hall x (List.dropLast_subset b hx)) hdne hpen0]
        rw [if_pos hpen, if_neg (by omega : ¬(fromLE b.dropLast : Int) < 0)]
        conv_rhs => rw [← dropLast_concat_getLastD b hb 0]
        rw [h0]
      · have hfpos : 0 < fromLE b := fromLE_pos b hb h0
        unfold encode_num
        rw [if_neg (by omega : ¬((fromLE b : Int)) = 0)]
        rw [show ((fromLE b : Int)).natAbs = fromLE b by simp]
        rw [toLE_fromLE b hall hb h0, if_neg hhi,
          if_neg (by omega : ¬(fromLE b : Int) < 0)]

/-- Every encoding is a valid script-number byte string, so the validity
predicate is exactly the image of `encode_num`. -/
theorem encode_num_valid (n : Int) : validScriptNum (encode_num n) = true := by
  by_cases hn : n = 0
  · subst hn; rfl
  · have hm : n.natAbs ≠ 0 := by simpa using hn
    have hne : toLE n.natAbs ≠ [] := toLE_ne_nil _ hm
    have hlast : (toLE n.natAbs).getLastD 0 ≠ 0 := toLE_getLastD _ hm
    have hlast_lt : (toLE n.natAbs).getLastD 0 < 256 :=
      toLE_mem_lt _ _ (getLastD_mem _ hne _)
    have hrlen : 1 ≤ (toLE n.natAbs).length := by
      rcases List.exists_cons_of_ne_nil hne with ⟨a, t, ht⟩
      rw [ht]
      simp
    unfold encode_num validScriptNum
    rw [if_neg hn]
    by_cases hhi : 128 ≤ (toLE n.natAbs).getLastD 0
    · rw [if_pos hhi, Bool.and_eq_true, Bool.or_eq_true]
      constructor
      · rw [List.all_eq_true]
        intro x hx
        rcases List.mem_append.mp hx with hx | hx
        · exact decide_eq_true (toLE_mem_lt _ _ hx)
        · rw [List.mem_singleton] at hx
          subst hx
          split <;> exact decide_eq_true (by omega)
      · right
        rw [getLastD_concat']
        rw [if_pos (by split <;> simp)]
        rw [Bool.and_eq_true, List.dropLast_concat]
        refine ⟨decide_eq_true ?_, decide_eq_true ?_⟩
        · rw [List.length_append]
          simp
          omega
        · exact hhi
    · rw [if_neg hhi]
      by_cases hneg : n < 0
      · rw [if_pos hneg, Bool.and_eq_true, Bool.or_eq_true]
        constructor
        · rw [List.all_eq_true]
          intro x hx
          rcases List.mem_append.mp hx with hx | hx
          · exact decide_eq_true (toLE_mem_lt _ _ (List.dropLast_subset _ hx))
          · rw [List.mem_singleton] at hx
            subst hx
            exact decide_eq_true (by omega)
        · right
          rw [getLastD_concat']
          rw [if_neg (by omega)]
      · rw [if_neg hneg, Bool.and_eq_true, Bool.or_eq_true]
        constructor
        · rw [List.all_eq_true]
          intro x hx
          exact decide_eq_true (toLE_mem_lt _ _ hx)
        · right
          rw [if_neg (by omega)]

/-- C9. Decoding inverts encoding on every integer with `|n| < 2^63`
(in fact on every integer), and encoding inverts decoding on every valid
script-number byte string — where validity, per the claim's description
of the format, means all entries are bytes and a trailing `0x00`/`0x80`
appears only as the sign byte demanded by a high top magnitude byte;
every output of `encode_num` is valid in this sense. -/
theorem c9_roundtrips :
    (∀ n : Int, n.natAbs < 2 ^ 63 → decode_num (encode_num n) = n) ∧
    (∀ b : List Nat, validScriptNum b = true → encode_num (decode_num b) = b) ∧
    (∀ n : Int, validScriptNum (encode_num n) = true) :=
  ⟨fun n _ => decode_encode_num n, encode_decode_num, encode_num_valid⟩

/-- C9, witness: the round trips at `n = 5` and at the byte string
`[0x05]`. -/
theorem c9_roundtrips_witness :
    decode_num (encode_num 5) = 5 ∧ encode_num (decode_num [5]) = [5] :=
  ⟨c9_roundtrips.1 5 (by decide), c9_roundtrips.2.1 [5] (by decide)⟩

end BtcSpec

namespace BtcSpec

/-! ### Claim C5 — the UTXO-set amount invariant -/

/-- Keys of the UTXO dictionary, in insertion order. -/
def utxoKeys (s : UTXOSet) : List (List Nat) := s.map (·.1)

/-- Keys of the outpoints spent by a transaction's non-coinbase inputs. -/
def spentKeys (tx : Transaction) : List (List Nat) :=
  (tx.inputs.filter (fun i => i.prev_tx_hash ≠ zeros64)).map
    (fun i => utxoKey i.prev_tx_hash i.prev_output_index)

/-- Amount stored in the UTXO set under a key (zero when absent; the
claim only reads it at present keys). -/
def lookupAmount (s : UTXOSet) (k : List Nat) : Int :=
  ((s.find? (·.1 = k)).map (·.2.amount)).getD 0

/-- The removal phase of `update_with_transaction`, as a fold over keys. -/
def removeKeys (ks : List (List Nat)) (s : UTXOSet) : UTXOSet :=
  ks.foldl (fun acc k => if utxoContains acc k then dictDel k acc else acc) s

/-- Membership test of the dictionary agrees with key membership. -/
theorem utxoContains_iff (s : UTXOSet) (k : List Nat) :
    utxoContains s k = true ↔ k ∈ utxoKeys s := by
  unfold utxoContains utxoKeys
  rw [List.any_eq_true]
  constructor
  · rintro ⟨e, he, hk⟩
    exact List.mem_map.mpr ⟨e, he, of_decide_eq_true hk⟩
  · intro hk
    rcases List.mem_map.mp hk with ⟨e, he, hk⟩
    exact ⟨e, he, decide_eq_true hk⟩

/-- Unfolding equation of dictionary deletion at a cons cell. -/
theorem dictDel_cons (k k0 : List Nat) (v0 : TxOutput) (rest : UTXOSet) :
    dictDel k ((k0, v0) :: rest) =
      if k0 = k then rest else (k0, v0) :: dictDel k rest := rfl

/-- Keys of a cons cell. -/
theorem utxoKeys_cons (k0 : List Nat) (v0 : TxOutput) (rest : UTXOSet) :
    utxoKeys ((k0, v0) :: rest) = k0 :: utxoKeys rest := rfl

/-- Total of a cons cell. -/
theorem utxoTotal_cons (k0 : List Nat) (v0 : TxOutput) (rest : UTXOSet) :
    utxoTotal ((k0, v0) :: rest) = v0.amount + utxoTotal rest := by
  simp [utxoTotal]

/-- Amount looked up at the head key. -/
theorem lookupAmount_cons_self (k0 : List Nat) (v0 : TxOutput) (rest : UTXOSet) :
    lookupAmount ((k0, v0) :: rest) k0 = v0.amount := by
  unfold lookupAmount
  rw [List.find?_cons_of_pos _ (by simp)]
  rfl

/-- Amount looked up below a mismatching head. -/
theorem lookupAmount_cons_ne (k k0 : List Nat) (v0 : TxOutput) (rest : UTXOSet)
    (h : k0 ≠ k) : lookupAmount ((k0, v0) :: rest) k = lookupAmount rest k := by
  unfold lookupAmount
  rw [List.find?_cons_of_neg _ (by simp [h])]

/-- Deleting a present key removes exactly its amount. -/
theorem dictDel_total (k : List Nat) : ∀ (s : UTXOSet), (utxoKeys s).Nodup →
    k ∈ utxoKeys s →
    utxoTotal (dictDel k s) = utxoTotal s - lookupAmount s k := by
  intro s
  induction s with
  | nil => intro _ h; simp [utxoKeys] at h
  | cons e rest ih =>
    intro hnd hk
    obtain ⟨k', v'⟩ := e
    rw [utxoKeys_cons, List.nodup_cons] at hnd
    by_cases hek : k' = k
    · subst hek
      rw [dictDel_cons, if_pos rfl, lookupAmount_cons_self, utxoTotal_cons]
      omega
    · rw [dictDel_cons, if_neg hek]
      have hkrest : k ∈ utxoKeys rest := by
        rw [utxoKeys_cons, List.mem_cons] at hk
        rcases hk with hk | hk
        · exact absurd hk.symm hek
        · exact hk
      rw [lookupAmount_cons_ne k k' v' rest hek, utxoTotal_cons, utxoTotal_cons,
        ih hnd.2 hkrest]
      omega

/-- Deleting a key keeps every other key's presence unchanged, and
removes the deleted key when keys are duplicate-free. -/
theorem dictDel_mem (k k' : List Nat) : ∀ (s : UTXOSet), (utxoKeys s).Nodup →
    (k' ∈ utxoKeys (dictDel k s) ↔ (k' ∈ utxoKeys s ∧ k' ≠ k)) := by
  intro s
  induction s with
  | nil => intro _; simp [dictDel, utxoKeys]
  | cons e rest ih =>
    intro hnd
    obtain ⟨k0, v0⟩ := e
    rw [utxoKeys_cons, List.nodup_cons] at hnd
    by_cases hek : k0 = k
    · subst hek
      rw [dictDel_cons, if_pos rfl, utxoKeys_cons]
      constructor
      · intro h
        refine ⟨List.mem_cons_of_mem _ h, ?_⟩
        intro hc
        subst hc
        exact hnd.1 h
      · rintro ⟨h, hne⟩
        rcases List.mem_cons.mp h with h | h
        · exact absurd h hne
        · exact h
    · rw [dictDel_cons, if_neg hek, utxoKeys_cons, utxoKeys_cons, List.mem_cons,
        List.mem_cons, ih hnd.2]
      constructor
      · rintro (h | ⟨h1, h2⟩)
        · subst h
          exact ⟨Or.inl rfl, fun hc => hek hc⟩
        · exact ⟨Or.inr h1, h2⟩
      · rintro ⟨h | h, hne⟩
        · exact Or.inl h
        · exact Or.inr ⟨h, hne⟩

/-- Deleting a key preserves duplicate-freedom of the keys. -/
theorem dictDel_nodup (k : List Nat) : ∀ (s : UTXOSet), (utxoKeys s).Nodup →
    (utxoKeys (dictDel k s)).Nodup := by
  intro s
  induction s with
  | nil => intro h; exact h
  | cons e rest ih =>
    intro hnd
    obtain ⟨k0, v0⟩ := e
    rw [utxoKeys_cons, List.nodup_cons] at hnd
    by_cases hek : k0 = k
    · rw [dictDel_cons, if_pos hek]
      exact hnd.2
    · rw [dictDel_cons, if_neg hek, utxoKeys_cons, List.nodup_cons]
      refine ⟨?_, ih hnd.2⟩
      intro hc
      exact hnd.1 ((dictDel_mem k k0 rest hnd.2).mp hc).1

/-- Deleting one key leaves the amount stored under any other key
unchanged. -/
theorem dictDel_lookup (k k' : List Nat) (hne : k' ≠ k) : ∀ (s : UTXOSet),
    lookupAmount (dictDel k s) k' = lookupAmount s k' := by
  intro s
  induction s with
  | nil => rfl
  | cons e rest ih =>
    obtain ⟨k0, v0⟩ := e
    by_cases hek : k0 = k
    · subst hek
      rw [dictDel_cons, if_pos rfl,
        lookupAmount_cons_ne k' k0 v0 rest (fun hc => hne hc.symm)]
    · rw [dictDel_cons, if_neg hek]
      by_cases h0 : k0 = k'
      · subst h0
        rw [lookupAmount_cons_self, lookupAmount_cons_self]
      · rw [lookupAmount_cons_ne k' k0 v0 _ h0, lookupAmount_cons_ne k' k0 v0 rest h0]
        exact ih

end BtcSpec

namespace BtcSpec

/-- Unfolding equation of the key-removal fold. -/
theorem removeKeys_cons (k : List Nat) (ks : List (List Nat)) (s : UTXOSet) :
    removeKeys (k :: ks) s =
      removeKeys ks (if utxoContains s k then dictDel k s else s) := by
  unfold removeKeys
  rw [List.foldl_cons]

/-- Removal of a spent outpoint, written through its key. -/
theorem remove_utxo_eq (s : UTXOSet) (h : List Nat) (i : Nat) :
    remove_utxo s h i =
      if utxoContains s (utxoKey h i) then dictDel (utxoKey h i) s else s := rfl

/-- The input phase of `update_with_transaction` deletes exactly the keys
of the non-coinbase inputs, in order. -/
theorem inputs_fold_eq_removeKeys (inputs : List TxInput) : ∀ (s : UTXOSet),
    inputs.foldl (fun acc inp => if inp.prev_tx_hash ≠ zeros64 then
      remove_utxo acc inp.prev_tx_hash inp.prev_output_index else acc) s =
    removeKeys ((inputs.filter (fun i => i.prev_tx_hash ≠ zeros64)).map
      (fun i => utxoKey i.prev_tx_hash i.prev_output_index)) s := by
  induction inputs with
  | nil => intro s; rfl
  | cons i rest ih =>
    intro s
    rw [List.foldl_cons]
    by_cases hc : i.prev_tx_hash ≠ zeros64
    · rw [if_pos hc, List.filter_cons_of_pos (by simpa using hc), List.map_cons,
        removeKeys_cons, ih, remove_utxo_eq]
    · rw [if_neg hc, List.filter_cons_of_neg (by simpa using hc), ih]

/-- Removing a list of distinct, present keys subtracts exactly their
amounts, keeps keys duplicate-free, and leaves exactly the other keys. -/
theorem removeKeys_spec : ∀ (ks : List (List Nat)) (s : UTXOSet),
    (utxoKeys s).Nodup → ks.Nodup → (∀ k ∈ ks, k ∈ utxoKeys s) →
    utxoTotal (removeKeys ks s) = utxoTotal s - ((ks.map (lookupAmount s)).sum) ∧
    (utxoKeys (removeKeys ks s)).Nodup ∧
    (∀ k', k' ∈ utxoKeys (removeKeys ks s) ↔ (k' ∈ utxoKeys s ∧ k' ∉ ks)) := by
  intro ks
  induction ks with
  | nil =>
    intro s h1 _ _
    exact ⟨by simp [removeKeys], h1, fun k' => by simp [removeKeys]⟩
  | cons k rest ih =>
    intro s hnd hknd hin
    rw [List.nodup_cons] at hknd
    have hkmem : k ∈ utxoKeys s := hin k (List.mem_cons_self _ _)
    have hcont : utxoContains s k = true := (utxoContains_iff s k).mpr hkmem
    have hstep : removeKeys (k :: rest) s = removeKeys rest (dictDel k s) := by
      rw [removeKeys_cons, if_pos hcont]
    have hrin : ∀ k' ∈ rest, k' ∈ utxoKeys (dictDel k s) := by
      intro k' hk'
      rw [dictDel_mem k k' s hnd]
      refine ⟨hin k' (List.mem_cons_of_mem _ hk'), ?_⟩
      intro hc
      subst hc
      exact hknd.1 hk'
    obtain ⟨ht, hn2, hmem⟩ := ih (dictDel k s) (dictDel_nodup k s hnd) hknd.2 hrin
    rw [hstep]
    refine ⟨?_, hn2, ?_⟩
    · rw [ht, dictDel_total k s hnd hkmem, List.map_cons, List.sum_cons]
      rw [List.map_congr_left (fun k' hk' => dictDel_lookup k k'
        (fun hc => hknd.1 (hc ▸ hk')) s)]
      omega
    · intro k'
      rw [hmem k', dictDel_mem k k' s hnd, List.mem_cons]
      constructor
      · rintro ⟨⟨h1, h2⟩, h3⟩
        exact ⟨h1, fun hc => hc.elim h2 h3⟩
      · rintro ⟨h1, h2⟩
        exact ⟨⟨h1, fun hc => h2 (Or.inl hc)⟩, fun hc => h2 (Or.inr hc)⟩

/-- Seting a fresh key appends its entry. -/
theorem dictSet_fresh (k : List Nat) (v : TxOutput) : ∀ (s : UTXOSet),
    k ∉ utxoKeys s → dictSet k v s = s ++ [(k, v)] := by
  intro s
  induction s with
  | nil => intro _; rfl
  | cons e rest ih =>
    intro hk
    obtain ⟨k0, v0⟩ := e
    rw [utxoKeys_cons, List.mem_cons] at hk
    push_neg at hk
    rw [show dictSet k v ((k0, v0) :: rest) =
      if k0 = k then (k, v) :: rest else (k0, v0) :: dictSet k v rest from rfl]
    rw [if_neg (fun hc => hk.1 hc.symm), ih hk.2]
    rfl

/-- Appending one entry adds its amount. -/
theorem utxoTotal_append_single (s : UTXOSet) (k : List Nat) (v : TxOutput) :
    utxoTotal (s ++ [(k, v)]) = utxoTotal s + v.amount := by
  simp [utxoTotal]

/-- Appending one entry appends its key. -/
theorem utxoKeys_append_single (s : UTXOSet) (k : List Nat) (v : TxOutput) :
    utxoKeys (s ++ [(k, v)]) = utxoKeys s ++ [k] := by
  simp [utxoKeys]

/-- The output phase of `update_with_transaction` adds exactly the sum of
the output amounts when all the new keys are fresh and mutually
distinct. -/
theorem addFold (H : List Nat) : ∀ (outs : List TxOutput) (n : Nat) (s : UTXOSet),
    (∀ j, j < outs.length → utxoKey H (n + j) ∉ utxoKeys s) →
    (∀ i j, i < j → j < outs.length → utxoKey H (n + i) ≠ utxoKey H (n + j)) →
    utxoTotal ((List.enumFrom n outs).foldl
      (fun acc p => add_utxo acc H p.1 p.2) s) =
      utxoTotal s + (outs.map (·.amount)).sum := by
  intro outs
  induction outs with
  | nil => intro n s _ _; simp
  | cons o rest ih =>
    intro n s hfresh hdist
    rw [List.enumFrom_cons, List.foldl_cons]
    have h0 : utxoKey H n ∉ utxoKeys s := by
      have := hfresh 0 (by simp)
      simpa using this
    rw [show add_utxo s H n o = dictSet (utxoKey H n) o s from rfl,
      dictSet_fresh _ _ s h0]
    have hfresh' : ∀ j, j < rest.length →
        utxoKey H (n + 1 + j) ∉ utxoKeys (s ++ [(utxoKey H n, o)]) := by
      intro j hj
      rw [utxoKeys_append_single, List.mem_append, List.mem_singleton]
      push_neg
      constructor
      · have := hfresh (j + 1) (by simp; omega)
        rwa [show n + (j + 1) = n + 1 + j by omega] at this
      · have := hdist 0 (j + 1) (by omega) (by simp; omega)
        rw [show n + 0 = n by omega, show n + (j + 1) = n + 1 + j by omega] at this
        exact fun hc => this hc.symm
    have hdist' : ∀ i j, i < j → j < rest.length →
        utxoKey H (n + 1 + i) ≠ utxoKey H (n + 1 + j) := by
      intro i j hij hj
      have := hdist (i + 1) (j + 1) (by omega) (by simp; omega)
      rwa [show n + (i + 1) = n + 1 + i by omega,
        show n + (j + 1) = n + 1 + j by omega] at this
    rw [ih (n + 1) (s ++ [(utxoKey H n, o)]) hfresh' hdist',
      utxoTotal_append_single, List.map_cons, List.sum_cons]
    omega

/-- C5. Applying a transaction whose non-coinbase inputs spend distinct,
present outpoints and whose output keys are fresh and mutually distinct
changes the total amount of the UTXO set by exactly
`- (spent amounts) + (output amounts)`. -/
theorem c5_utxo_sum (s : UTXOSet) (tx : Transaction)
    (hnodup : (utxoKeys s).Nodup)
    (hpresent : ∀ k ∈ spentKeys tx, k ∈ utxoKeys s)
    (hspk : (spentKeys tx).Nodup)
    (hfresh : ∀ j, j < tx.outputs.length → utxoKey tx.tx_hash j ∉ utxoKeys s)
    (houtdist : ∀ i j, i < j → j < tx.outputs.length →
      utxoKey tx.tx_hash i ≠ utxoKey tx.tx_hash j) :
    utxoTotal (update_with_transaction s tx) =
      utxoTotal s - ((spentKeys tx).map (lookupAmount s)).sum +
        (tx.outputs.map (·.amount)).sum := by
  unfold update_with_transaction
  rw [inputs_fold_eq_removeKeys]
  rw [show (List.filter (fun i => decide (i.prev_tx_hash ≠ zeros64)) tx.inputs).map
    (fun i => utxoKey i.prev_tx_hash i.prev_output_index) = spentKeys tx from rfl]
  obtain ⟨ht, hn1, hmem1⟩ := removeKeys_spec (spentKeys tx) s hnodup hspk hpresent
  rw [show tx.outputs.enum = List.enumFrom 0 tx.outputs from rfl]
  rw [addFold tx.tx_hash tx.outputs 0 _
    (by
      intro j hj
      intro hc
      have := (hmem1 (utxoKey tx.tx_hash (0 + j))).mp hc
      exact hfresh j hj (by simpa using this.1))
    (by
      intro i j hij hj
      have := houtdist i j hij hj
      simpa using this)]
  rw [ht]

end BtcSpec

namespace BtcSpec

/-- C5, witness: a one-input, one-output transaction spending the single
present outpoint of a one-entry UTXO set. -/
theorem c5_utxo_sum_witness :
    utxoTotal (update_with_transaction [(utxoKey [97] 0, ⟨7, [100]⟩)]
      ⟨[⟨[97], 0, [], []⟩], [⟨5, [98]⟩], 0, [99]⟩) =
      utxoTotal [(utxoKey [97] 0, ⟨7, [100]⟩)] -
        ((spentKeys ⟨[⟨[97], 0, [], []⟩], [⟨5, [98]⟩], 0, [99]⟩).map
          (lookupAmount [(utxoKey [97] 0, ⟨7, [100]⟩)])).sum +
        ((⟨[⟨[97], 0, [], []⟩], [⟨5, [98]⟩], 0, [99]⟩ : Transaction).outputs.map
          (·.amount)).sum :=
  c5_utxo_sum _ _ (by decide) (by decide) (by decide) (by decide)
    (fun i j hij hj => by simp at hj; omega)

end BtcSpec

namespace BtcSpec

/-! ### Claim C10 — the mempool's bidirectional edge invariant -/

/-- Keys of the mempool dictionary, in insertion order. -/
def poolKeys (p : Mempool) : List String := p.map (·.1)

/-- In-place adjustment fold shared by `add_transaction` (wiring children
into present parents) and `remove_transaction` (discarding references
from present parents and children). -/
def adjustFold (g : MempoolTransaction → MempoolTransaction) (ps : List String)
    (p : Mempool) : Mempool :=
  ps.foldl (fun acc pid =>
    if (poolGet acc pid).isSome then poolAdjust pid g acc else acc) p

/-- Adding a transaction is storing it and wiring its present parents. -/
theorem add_transaction_eq (p : Mempool) (tx : MempoolTransaction) :
    add_transaction p tx =
      adjustFold (fun t => {t with children := setAdd t.children tx.tx_id})
        tx.parents (poolSet tx.tx_id tx p) := rfl

/-- A lookup succeeds exactly on stored keys. -/
theorem poolGet_isSome_iff (p : Mempool) (q : String) :
    (poolGet p q).isSome = true ↔ q ∈ poolKeys p := by
  unfold poolGet poolKeys
  rw [Option.isSome_map', List.find?_isSome]
  constructor
  · rintro ⟨e, he, hq⟩
    exact List.mem_map.mpr ⟨e, he, of_decide_eq_true hq⟩
  · intro hq
    rcases List.mem_map.mp hq with ⟨e, he, hq⟩
    exact ⟨e, he, decide_eq_true hq⟩

/-- Unfolding equation of adjustment at a cons cell. -/
theorem poolAdjust_cons (k k0 : String) (v0 : MempoolTransaction)
    (g : MempoolTransaction → MempoolTransaction) (rest : Mempool) :
    poolAdjust k g ((k0, v0) :: rest) =
      if k0 = k then (k0, g v0) :: rest else (k0, v0) :: poolAdjust k g rest := rfl

/-- Unfolding equation of deletion at a cons cell. -/
theorem poolDel_cons (k k0 : String) (v0 : MempoolTransaction) (rest : Mempool) :
    poolDel k ((k0, v0) :: rest) =
      if k0 = k then rest else (k0, v0) :: poolDel k rest := rfl

/-- Adjustment does not change the key list. -/
theorem poolAdjust_keys (k : String) (g : MempoolTransaction → MempoolTransaction) :
    ∀ p : Mempool, poolKeys (poolAdjust k g p) = poolKeys p := by
  intro p
  induction p with
  | nil => rfl
  | cons e rest ih =>
    obtain ⟨k0, v0⟩ := e
    by_cases hek : k0 = k
    · rw [poolAdjust_cons, if_pos hek]
      rfl
    · rw [poolAdjust_cons, if_neg hek]
      show k0 :: poolKeys (poolAdjust k g rest) = k0 :: poolKeys rest
      rw [ih]

/-- Entries of an adjusted pool, when keys are duplicate-free: entries
with other keys are untouched, and the entry at the adjusted key is the
old value under `g`. -/
theorem mem_poolAdjust (k : String) (g : MempoolTransaction → MempoolTransaction) :
    ∀ (p : Mempool), (poolKeys p).Nodup → ∀ e,
    (e ∈ poolAdjust k g p ↔
      ((e ∈ p ∧ e.1 ≠ k) ∨ ∃ v, (k, v) ∈ p ∧ e = (k, g v))) := by
  intro p
  induction p with
  | nil => intro _ e; simp [poolAdjust]
  | cons e0 rest ih =>
    intro hnd e
    obtain ⟨k0, v0⟩ := e0
    have hcons : poolKeys ((k0, v0) :: rest) = k0 :: poolKeys rest := rfl
    rw [hcons, List.nodup_cons] at hnd
    by_cases hek : k0 = k
    · subst hek
      rw [poolAdjust_cons, if_pos rfl]
      constructor
      · intro h
        rcases List.mem_cons.mp h with h | h
        · exact Or.inr ⟨v0, List.mem_cons_self _ _, h⟩
        · refine Or.inl ⟨List.mem_cons_of_mem _ h, ?_⟩
          intro hc
          exact hnd.1 (hc ▸ List.mem_map.mpr ⟨e, h, rfl⟩)
      · rintro (⟨h, hne⟩ | ⟨v, hv, he⟩)
        · rcases List.mem_cons.mp h with h | h
          · exact absurd (congrArg Prod.fst h) hne
          · exact List.mem_cons_of_mem _ h
        · rcases List.mem_cons.mp hv with hv | hv
          · rw [Prod.mk.injEq] at hv
            rw [he, hv.2]
            exact List.mem_cons_self _ _
          · exact absurd (List.mem_map.mpr ⟨(k0, v), hv, rfl⟩) hnd.1
    · rw [poolAdjust_cons, if_neg hek]
      rw [List.mem_cons, ih hnd.2 e]
      constructor
      · rintro (h | (⟨h, hne⟩ | ⟨v, hv, he⟩))
        · subst h
          exact Or.inl ⟨List.mem_cons_self _ _, hek⟩
        · exact Or.inl ⟨List.mem_cons_of_mem _ h, hne⟩
        · exact Or.inr ⟨v, List.mem_cons_of_mem _ hv, he⟩
      · rintro (⟨h, hne⟩ | ⟨v, hv, he⟩)
        · rcases List.mem_cons.mp h with h | h
          · exact Or.inl h
          · exact Or.inr (Or.inl ⟨h, hne⟩)
        · rcases List.mem_cons.mp hv with hv | hv
          · rw [Prod.mk.injEq] at hv
            exact absurd hv.1.symm hek
          · exact Or.inr (Or.inr ⟨v, hv, he⟩)

/-- Storing at a fresh key appends the entry. -/
theorem poolSet_fresh (k : String) (v : MempoolTransaction) : ∀ (p : Mempool),
    k ∉ poolKeys p → poolSet k v p = p ++ [(k, v)] := by
  intro p
  induction p with
  | nil => intro _; rfl
  | cons e rest ih =>
    intro hk
    obtain ⟨k0, v0⟩ := e
    rw [show poolKeys ((k0, v0) :: rest) = k0 :: poolKeys rest from rfl,
      List.mem_cons] at hk
    push_neg at hk
    rw [show poolSet k v ((k0, v0) :: rest) =
      if k0 = k then (k, v) :: rest else (k0, v0) :: poolSet k v rest from rfl]
    rw [if_neg (fun hc => hk.1 hc.symm), ih hk.2]
    rfl

/-- Entries of a deletion, when keys are duplicate-free. -/
theorem mem_poolDel (k : String) : ∀ (p : Mempool), (poolKeys p).Nodup → ∀ e,
    (e ∈ poolDel k p ↔ e ∈ p ∧ e.1 ≠ k) := by
  intro p
  induction p with
  | nil => intro _ e; simp [poolDel]
  | cons e0 rest ih =>
    intro hnd e
    obtain ⟨k0, v0⟩ := e0
    rw [show poolKeys ((k0, v0) :: rest) = k0 :: poolKeys rest from rfl,
      List.nodup_cons] at hnd
    by_cases hek : k0 = k
    · subst hek
      rw [poolDel_cons, if_pos rfl]
      constructor
      · intro h
        refine ⟨List.mem_cons_of_mem _ h, ?_⟩
        intro hc
        exact hnd.1 (hc ▸ List.mem_map.mpr ⟨e, h, rfl⟩)
      · rintro ⟨h, hne⟩
        rcases List.mem_cons.mp h with h | h
        · exact absurd (congrArg Prod.fst h) hne
        · exact h
    · rw [poolDel_cons, if_neg hek]
      rw [List.mem_cons, ih hnd.2 e]
      constructor
      · rintro (h | ⟨h, hne⟩)
        · subst h
          exact ⟨List.mem_cons_self _ _, hek⟩
        · exact ⟨List.mem_cons_of_mem _ h, hne⟩
      · rintro ⟨h, hne⟩
        rcases List.mem_cons.mp h with h | h
        · exact Or.inl h
        · exact Or.inr (ih hnd.2 e |>.mpr ⟨h, hne⟩ |> fun hh => ⟨h, hne⟩)

/-- Deleting a key keeps the key list duplicate-free. -/
theorem poolDel_keys_nodup (k : String) : ∀ (p : Mempool), (poolKeys p).Nodup →
    (poolKeys (poolDel k p)).Nodup := by
  intro p
  induction p with
  | nil => intro h; exact h
  | cons e0 rest ih =>
    intro hnd
    obtain ⟨k0, v0⟩ := e0
    rw [show poolKeys ((k0, v0) :: rest) = k0 :: poolKeys rest from rfl,
      List.nodup_cons] at hnd
    by_cases hek : k0 = k
    · rw [poolDel_cons, if_pos hek]
      exact hnd.2
    · rw [poolDel_cons, if_neg hek]
      rw [show poolKeys ((k0, v0) :: poolDel k rest) = k0 :: poolKeys (poolDel k rest)
        from rfl, List.nodup_cons]
      refine ⟨?_, ih hnd.2⟩
      intro hc
      rcases List.mem_map.mp hc with ⟨e, he, hke⟩
      have := (mem_poolDel k rest hnd.2 e).mp he
      exact hnd.1 (hke ▸ List.mem_map.mpr ⟨e, this.1, rfl⟩)

/-- Membership in a Python set after `add`. -/
theorem mem_setAdd (l : List String) (x y : String) :
    y ∈ setAdd l x ↔ y ∈ l ∨ y = x := by
  unfold setAdd
  by_cases h : x ∈ l
  · rw [if_pos h]
    constructor
    · exact Or.inl
    · rintro (hy | hy)
      · exact hy
      · exact hy ▸ h
  · rw [if_neg h, List.mem_append, List.mem_singleton]

/-- Python set `add` keeps the element list duplicate-free. -/
theorem setAdd_nodup (l : List String) (x : String) (h : l.Nodup) :
    (setAdd l x).Nodup := by
  unfold setAdd
  by_cases hx : x ∈ l
  · rw [if_pos hx]; exact h
  · rw [if_neg hx]
    exact List.Nodup.append h (List.nodup_singleton x) (by simpa using hx)

end BtcSpec

namespace BtcSpec

/-- Unfolding equation of the adjustment fold. -/
theorem adjustFold_cons (g : MempoolTransaction → MempoolTransaction)
    (pid : String) (ps : List String) (p : Mempool) :
    adjustFold g (pid :: ps) p =
      adjustFold g ps (if (poolGet p pid).isSome then poolAdjust pid g p else p) := by
  unfold adjustFold
  rw [List.foldl_cons]

/-- The adjustment fold over a duplicate-free id list: keys are
unchanged, entries at ids in the list are adjusted once, all others are
untouched (ids absent from the pool are skipped, but they have no
entries to touch). -/
theorem adjustFold_spec (g : MempoolTransaction → MempoolTransaction) :
    ∀ (ps : List String) (p : Mempool), ps.Nodup → (poolKeys p).Nodup →
    poolKeys (adjustFold g ps p) = poolKeys p ∧
    (∀ e, e ∈ adjustFold g ps p ↔
      ((e ∈ p ∧ e.1 ∉ ps) ∨ ∃ v, (e.1, v) ∈ p ∧ e.1 ∈ ps ∧ e.2 = g v)) := by
  intro ps
  induction ps with
  | nil =>
    intro p _ hnd
    exact ⟨rfl, fun e => by simp [adjustFold]⟩
  | cons pid ps ih =>
    intro p hpnd hnd
    rw [List.nodup_cons] at hpnd
    rw [adjustFold_cons]
    by_cases hpres : (poolGet p pid).isSome = true
    · rw [if_pos hpres]
      have hka := poolAdjust_keys pid g p
      obtain ⟨hk2, hm2⟩ := ih (poolAdjust pid g p) hpnd.2 (by rw [hka]; exact hnd)
      refine ⟨by rw [hk2, hka], ?_⟩
      intro e
      obtain ⟨e1, e2⟩ := e
      rw [hm2 (e1, e2)]
      constructor
      · rintro (⟨he, hni⟩ | ⟨v, hv, hvin, he2⟩)
        · rcases (mem_poolAdjust pid g p hnd (e1, e2)).mp he with ⟨hep, hne⟩ | ⟨v, hv, hee⟩
          · refine Or.inl ⟨hep, ?_⟩
            rw [List.mem_cons]
            rintro (hc | hc)
            · exact hne hc
            · exact hni hc
          · rw [Prod.mk.injEq] at hee
            refine Or.inr ⟨v, ?_, ?_, hee.2⟩
            · rw [hee.1]; exact hv
            · rw [hee.1]; exact List.mem_cons_self _ _
        · have hne : e1 ≠ pid := fun hc => hpnd.1 (hc ▸ hvin)
          rcases (mem_poolAdjust pid g p hnd (e1, v)).mp hv with ⟨hep, _⟩ | ⟨w, hw, hee⟩
          · exact Or.inr ⟨v, hep, List.mem_cons_of_mem _ hvin, he2⟩
          · rw [Prod.mk.injEq] at hee
            exact absurd hee.1 hne
      · rintro (⟨hep, hni⟩ | ⟨v, hv, hvin, he2⟩)
        · rw [List.mem_cons] at hni
          push_neg at hni
          refine Or.inl ⟨?_, hni.2⟩
          rw [mem_poolAdjust pid g p hnd (e1, e2)]
          exact Or.inl ⟨hep, hni.1⟩
        · rcases List.mem_cons.mp hvin with hc | hc
          · subst hc
            refine Or.inl ⟨?_, hpnd.1⟩
            rw [mem_poolAdjust e1 g p hnd (e1, e2)]
            refine Or.inr ⟨v, hv, ?_⟩
            rw [Prod.mk.injEq]
            exact ⟨rfl, he2⟩
          · have hne : e1 ≠ pid := fun hq => hpnd.1 (hq ▸ hc)
            refine Or.inr ⟨v, ?_, hc, he2⟩
            rw [mem_poolAdjust pid g p hnd (e1, v)]
            exact Or.inl ⟨hv, hne⟩
    · rw [if_neg hpres]
      obtain ⟨hk2, hm2⟩ := ih p hpnd.2 hnd
      have habs : pid ∉ poolKeys p := fun hc =>
        hpres ((poolGet_isSome_iff p pid).mpr hc)
      refine ⟨hk2, ?_⟩
      intro e
      obtain ⟨e1, e2⟩ := e
      rw [hm2 (e1, e2)]
      constructor
      · rintro (⟨hep, hni⟩ | ⟨v, hv, hvin, he2⟩)
        · refine Or.inl ⟨hep, ?_⟩
          rw [List.mem_cons]
          rintro (hc | hc)
          · exact habs (hc ▸ List.mem_map.mpr ⟨(e1, e2), hep, rfl⟩)
          · exact hni hc
        · exact Or.inr ⟨v, hv, List.mem_cons_of_mem _ hvin, he2⟩
      · rintro (⟨hep, hni⟩ | ⟨v, hv, hvin, he2⟩)
        · rw [List.mem_cons] at hni
          push_neg at hni
          exact Or.inl ⟨hep, hni.2⟩
        · rcases List.mem_cons.mp hvin with hc | hc
          · exact absurd (hc ▸ List.mem_map.mpr ⟨(e1, v), hv, rfl⟩) habs
          · exact Or.inr ⟨v, hv, hc, he2⟩

end BtcSpec

namespace BtcSpec

/-- A key is stored exactly when some entry carries it. -/
theorem mem_poolKeys (p : Mempool) (k : String) :
    k ∈ poolKeys p ↔ ∃ v, (k, v) ∈ p := by
  unfold poolKeys
  rw [List.mem_map]
  constructor
  · rintro ⟨e, he, hk⟩
    exact ⟨e.2, by rwa [show (k, e.2) = e by rw [← hk]]⟩
  · rintro ⟨v, hv⟩
    exact ⟨(k, v), hv, rfl⟩

/-- The well-formedness invariant the mempool maintains: keys are
duplicate-free and match the stored ids; the parent and child sets are
duplicate-free, self-loop-free and point at stored transactions; and the
parent/child edge sets agree bidirectionally. -/
def GoodPool (p : Mempool) : Prop :=
  (poolKeys p).Nodup ∧
  (∀ e ∈ p, e.2.tx_id = e.1) ∧
  (∀ e ∈ p, e.2.parents.Nodup ∧ e.2.children.Nodup ∧
    e.1 ∉ e.2.parents ∧ e.1 ∉ e.2.children) ∧
  (∀ e ∈ p, ∀ q ∈ e.2.parents, q ∈ poolKeys p) ∧
  (∀ e ∈ p, ∀ q ∈ e.2.children, q ∈ poolKeys p) ∧
  (∀ e ∈ p, ∀ e' ∈ p, (e'.1 ∈ e.2.children ↔ e.1 ∈ e'.2.parents))

/-- Adding a fresh, childless transaction whose parents are all present
preserves the invariant. -/
theorem add_preserves (p : Mempool) (tx : MempoolTransaction)
    (hgp : GoodPool p) (hch : tx.children = [])
    (hfresh : tx.tx_id ∉ poolKeys p)
    (hpar : ∀ q ∈ tx.parents, q ∈ poolKeys p)
    (hpnd : tx.parents.Nodup) :
    GoodPool (add_transaction p tx) := by
  obtain ⟨hnd, hid, hsets, hpp, hcp, hbi⟩ := hgp
  rw [add_transaction_eq, poolSet_fresh _ _ p hfresh]
  have hk1 : poolKeys (p ++ [(tx.tx_id, tx)]) = poolKeys p ++ [tx.tx_id] := by
    simp [poolKeys]
  have hnd1 : (poolKeys (p ++ [(tx.tx_id, tx)])).Nodup := by
    rw [hk1]
    exact List.Nodup.append hnd (List.nodup_singleton _) (by simpa using hfresh)
  obtain ⟨hkA, hmA⟩ := adjustFold_spec
    (fun t => {t with children := setAdd t.children tx.tx_id}) tx.parents
    (p ++ [(tx.tx_id, tx)]) hpnd hnd1
  have hkeys : poolKeys (adjustFold
      (fun t => {t with children := setAdd t.children tx.tx_id}) tx.parents
      (p ++ [(tx.tx_id, tx)])) = poolKeys p ++ [tx.tx_id] := by
    rw [hkA, hk1]
  have htxp : tx.tx_id ∉ tx.parents := fun hc => hfresh (hpar _ hc)
  have hshape : ∀ e1 (e2 : MempoolTransaction),
      (e1, e2) ∈ adjustFold (fun t => {t with children := setAdd t.children tx.tx_id})
        tx.parents (p ++ [(tx.tx_id, tx)]) →
      (e1 = tx.tx_id ∧ e2 = tx ∧ e1 ∉ tx.parents) ∨
      (∃ v, (e1, v) ∈ p ∧
        ((e1 ∉ tx.parents ∧ e2 = v) ∨
         (e1 ∈ tx.parents ∧ e2 = {v with children := setAdd v.children tx.tx_id}))) := by
    intro e1 e2 he
    rcases (hmA (e1, e2)).mp he with ⟨hep, hni⟩ | ⟨v, hv, hvin, he2⟩
    · rcases List.mem_append.mp hep with h | h
      · exact Or.inr ⟨e2, h, Or.inl ⟨hni, rfl⟩⟩
      · rw [List.mem_singleton, Prod.mk.injEq] at h
        exact Or.inl ⟨h.1, h.2, h.1 ▸ hni⟩
    · rcases List.mem_append.mp hv with h | h
      · exact Or.inr ⟨v, h, Or.inr ⟨hvin, he2⟩⟩
      · rw [List.mem_singleton, Prod.mk.injEq] at h
        exact absurd (h.1 ▸ hvin) htxp
  have hkeyOf : ∀ e1 (v : MempoolTransaction), (e1, v) ∈ p → e1 ∈ poolKeys p :=
    fun e1 v hv => List.mem_map.mpr ⟨(e1, v), hv, rfl⟩
  refine ⟨by rw [hkeys, ← hk1]; exact hnd1, ?_, ?_, ?_, ?_, ?_⟩
  · rintro ⟨e1, e2⟩ he
    rcases hshape e1 e2 he with ⟨h1, h2, _⟩ | ⟨v, hv, (⟨_, h2⟩ | ⟨_, h2⟩)⟩
    · rw [h2, h1]
    · rw [h2]; exact hid (e1, v) hv
    · rw [h2]; exact hid (e1, v) hv
  · rintro ⟨e1, e2⟩ he
    rcases hshape e1 e2 he with ⟨h1, h2, _⟩ | ⟨v, hv, (⟨_, h2⟩ | ⟨hin, h2⟩)⟩
    · rw [h2, h1]
      exact ⟨hpnd, by rw [hch]; exact List.nodup_nil, htxp, by rw [hch]; simp⟩
    · rw [h2]; exact hsets (e1, v) hv
    · obtain ⟨hs1, hs2, hs3, hs4⟩ := hsets (e1, v) hv
      rw [h2]
      refine ⟨hs1, setAdd_nodup _ _ hs2, hs3, ?_⟩
      rw [mem_setAdd]
      rintro (hc | hc)
      · exact hs4 hc
      · exact hfresh (hc ▸ hkeyOf e1 v hv)
  · rintro ⟨e1, e2⟩ he q hq
    rw [hkeys, List.mem_append]
    rcases hshape e1 e2 he with ⟨_, h2, _⟩ | ⟨v, hv, (⟨_, h2⟩ | ⟨_, h2⟩)⟩
    · rw [h2] at hq
      exact Or.inl (hpar q hq)
    · rw [h2] at hq
      exact Or.inl (hpp (e1, v) hv q hq)
    · rw [h2] at hq
      exact Or.inl (hpp (e1, v) hv q hq)
  · rintro ⟨e1, e2⟩ he q hq
    rw [hkeys, List.mem_append]
    rcases hshape e1 e2 he with ⟨_, h2, _⟩ | ⟨v, hv, (⟨_, h2⟩ | ⟨_, h2⟩)⟩
    · rw [h2, hch] at hq
      simp at hq
    · rw [h2] at hq
      exact Or.inl (hcp (e1, v) hv q hq)
    · rw [h2] at hq
      rw [show ({v with children := setAdd v.children tx.tx_id} :
        MempoolTransaction).children = setAdd v.children tx.tx_id from rfl,
        mem_setAdd] at hq
      rcases hq with hq | hq
      · exact Or.inl (hcp (e1, v) hv q hq)
      · exact Or.inr (by simp [hq])
  · rintro ⟨a1, a2⟩ ha ⟨b1, b2⟩ hb
    show b1 ∈ a2.children ↔ a1 ∈ b2.parents
    rcases hshape a1 a2 ha with ⟨ha1, ha2, _⟩ | ⟨v, hv, hsub⟩
    · rcases hshape b1 b2 hb with ⟨hb1, hb2, _⟩ | ⟨w, hw, hwsub⟩
      · rw [ha2, hb2, hch, hb1, ha1]
        simp [htxp]
      · have hbp : b2.parents = w.parents := by
          rcases hwsub with ⟨_, h2⟩ | ⟨_, h2⟩ <;> rw [h2]
        rw [ha2, hch, hbp, ha1]
        constructor
        · intro hc; simp at hc
        · intro hc
          exact absurd (hpp (b1, w) hw _ hc) hfresh
    · rcases hshape b1 b2 hb with ⟨hb1, hb2, _⟩ | ⟨w, hw, hwsub⟩
      · rw [hb2, hb1]
        rcases hsub with ⟨hnin, h2⟩ | ⟨hin, h2⟩
        · rw [h2]
          constructor
          · intro hc
            exact absurd (hcp (a1, v) hv _ hc) hfresh
          · intro hc
            exact absurd hc hnin
        · rw [h2]
          rw [show ({v with children := setAdd v.children tx.tx_id} :
            MempoolTransaction).children = setAdd v.children tx.tx_id from rfl,
            mem_setAdd]
          constructor
          · intro _; exact hin
          · intro _; exact Or.inr rfl
      · have hbp : b2.parents = w.parents := by
          rcases hwsub with ⟨_, h2⟩ | ⟨_, h2⟩ <;> rw [h2]
        have hbne : b1 ≠ tx.tx_id := fun hc => hfresh (hc ▸ hkeyOf b1 w hw)
        have hach : b1 ∈ a2.children ↔ b1 ∈ v.children := by
          rcases hsub with ⟨_, h2⟩ | ⟨_, h2⟩
          · rw [h2]
          · rw [h2]
            rw [show ({v with children := setAdd v.children tx.tx_id} :
              MempoolTransaction).children = setAdd v.children tx.tx_id from rfl,
              mem_setAdd]
            constructor
            · rintro (hc | hc)
              · exact hc
              · exact absurd hc hbne
            · exact Or.inl
        rw [hach, hbp]
        exact hbi (a1, v) hv (b1, w) hw

end BtcSpec

namespace BtcSpec

/-- Removing an absent id is a no-op. -/
theorem remove_transaction_none (p : Mempool) (i : String)
    (h : poolGet p i = none) : remove_transaction p i = p := by
  unfold remove_transaction
  rw [h]

/-- Removing a present id discards it from its parents' child sets and
its children's parent sets, then deletes its entry. -/
theorem remove_transaction_some (p : Mempool) (i : String)
    (tx : MempoolTransaction) (h : poolGet p i = some tx) :
    remove_transaction p i = poolDel i
      (adjustFold (fun t => {t with parents := t.parents.erase i}) tx.children
        (adjustFold (fun t => {t with children := t.children.erase i}) tx.parents p)) := by
  unfold remove_transaction
  rw [h]
  rfl

/-- A successful lookup returns a stored entry. -/
theorem poolGet_some_mem (p : Mempool) (i : String) (tx : MempoolTransaction)
    (h : poolGet p i = some tx) : (i, tx) ∈ p := by
  unfold poolGet at h
  rw [Option.map_eq_some'] at h
  obtain ⟨e, he, htx⟩ := h
  obtain ⟨e1, e2⟩ := e
  have hkey := List.find?_some he
  simp only [decide_eq_true_eq] at hkey
  have hmem := List.mem_of_find?_eq_some he
  rw [← hkey, ← show e2 = tx from htx]
  exact hmem

/-- Removing any id preserves the invariant. -/
theorem remove_preserves (p : Mempool) (i : String) (hgp : GoodPool p) :
    GoodPool (remove_transaction p i) := by
  obtain ⟨hnd, hid, hsets, hpp, hcp, hbi⟩ := hgp
  cases hg : poolGet p i with
  | none =>
    rw [remove_transaction_none p i hg]
    exact ⟨hnd, hid, hsets, hpp, hcp, hbi⟩
  | some tx =>
    rw [remove_transaction_some p i tx hg]
    have htxm : (i, tx) ∈ p := poolGet_some_mem p i tx hg
    obtain ⟨hTp, hTc, hTsp, hTsc⟩ := hsets (i, tx) htxm
    obtain ⟨hk1, hm1⟩ := adjustFold_spec
      (fun t => {t with children := t.children.erase i}) tx.parents p hTp hnd
    have hnd1 : (poolKeys (adjustFold
        (fun t => {t with children := t.children.erase i}) tx.parents p)).Nodup := by
      rw [hk1]; exact hnd
    obtain ⟨hk2, hm2⟩ := adjustFold_spec
      (fun t => {t with parents := t.parents.erase i}) tx.children
      (adjustFold (fun t => {t with children := t.children.erase i}) tx.parents p)
      hTc hnd1
    have hnd2 : (poolKeys (adjustFold
        (fun t => {t with parents := t.parents.erase i}) tx.children
        (adjustFold (fun t => {t with children := t.children.erase i})
          tx.parents p))).Nodup := by
      rw [hk2]; exact hnd1
    -- Shape of an entry after the two discard folds.
    have hshape : ∀ e1 (e2 : MempoolTransaction),
        (e1, e2) ∈ adjustFold (fun t => {t with parents := t.parents.erase i})
          tx.children
          (adjustFold (fun t => {t with children := t.children.erase i})
            tx.parents p) →
        ∃ v, (e1, v) ∈ p ∧ v.tx_id = e2.tx_id ∧
          ((e1 ∉ tx.children ∧ e2.parents = v.parents) ∨
            (e1 ∈ tx.children ∧ e2.parents = v.parents.erase i)) ∧
          ((e1 ∉ tx.parents ∧ e2.children = v.children) ∨
            (e1 ∈ tx.parents ∧ e2.children = v.children.erase i)) := by
      intro e1 e2 he
      rcases (hm2 (e1, e2)).mp he with ⟨he1, hni⟩ | ⟨w, hw, hwin, he2⟩
      · rcases (hm1 (e1, e2)).mp he1 with ⟨hep, hnp⟩ | ⟨v, hv, hvin, hev⟩
        · exact ⟨e2, hep, rfl, Or.inl ⟨hni, rfl⟩, Or.inl ⟨hnp, rfl⟩⟩
        · have hev' : e2 = {v with children := v.children.erase i} := hev
          exact ⟨v, hv, by rw [hev'], Or.inl ⟨hni, by rw [hev']⟩,
            Or.inr ⟨hvin, by rw [hev']⟩⟩
      · have he2' : e2 = {w with parents := w.parents.erase i} := he2
        rcases (hm1 (e1, w)).mp hw with ⟨hep, hnp⟩ | ⟨v, hv, hvin, hev⟩
        · exact ⟨w, hep, by rw [he2'], Or.inr ⟨hwin, by rw [he2']⟩,
            Or.inl ⟨hnp, by rw [he2']⟩⟩
        · have hev' : w = {v with children := v.children.erase i} := hev
          exact ⟨v, hv, by rw [he2', hev'], Or.inr ⟨hwin, by rw [he2', hev']⟩,
            Or.inr ⟨hvin, by rw [he2', hev']⟩⟩
    have hkeyOf : ∀ e1 (v : MempoolTransaction), (e1, v) ∈ p → e1 ∈ poolKeys p :=
      fun e1 v hv => List.mem_map.mpr ⟨(e1, v), hv, rfl⟩
    -- Keys of the final pool.
    have hkey3 : ∀ q, q ∈ poolKeys (poolDel i
        (adjustFold (fun t => {t with parents := t.parents.erase i}) tx.children
          (adjustFold (fun t => {t with children := t.children.erase i})
            tx.parents p))) ↔ (q ∈ poolKeys p ∧ q ≠ i) := by
      intro q
      rw [mem_poolKeys]
      constructor
      · rintro ⟨v, hv⟩
        have := (mem_poolDel i _ hnd2 (q, v)).mp hv
        refine ⟨?_, this.2⟩
        rw [← hk1, ← hk2]
        exact List.mem_map.mpr ⟨(q, v), this.1, rfl⟩
      · rintro ⟨hq, hne⟩
        rw [← hk1, ← hk2, mem_poolKeys] at hq
        obtain ⟨v, hv⟩ := hq
        exact ⟨v, (mem_poolDel i _ hnd2 (q, v)).mpr ⟨hv, hne⟩⟩
    refine ⟨poolDel_keys_nodup i _ hnd2, ?_, ?_, ?_, ?_, ?_⟩
    · rintro ⟨e1, e2⟩ he
      have hm := ((mem_poolDel i _ hnd2 (e1, e2)).mp he).1
      obtain ⟨v, hv, hvid, _, _⟩ := hshape e1 e2 hm
      rw [← hvid]
      exact hid (e1, v) hv
    · rintro ⟨e1, e2⟩ he
      have hm := ((mem_poolDel i _ hnd2 (e1, e2)).mp he).1
      obtain ⟨v, hv, _, hpar, hchl⟩ := hshape e1 e2 hm
      obtain ⟨hs1, hs2, hs3, hs4⟩ := hsets (e1, v) hv
      refine ⟨?_, ?_, ?_, ?_⟩
      · rcases hpar with ⟨_, h2⟩ | ⟨_, h2⟩
        · rw [h2]; exact hs1
        · rw [h2]; exact hs1.erase i
      · rcases hchl with ⟨_, h2⟩ | ⟨_, h2⟩
        · rw [h2]; exact hs2
        · rw [h2]; exact hs2.erase i
      · rcases hpar with ⟨_, h2⟩ | ⟨_, h2⟩
        · rw [h2]; exact hs3
        · rw [h2]; exact fun hc => hs3 (List.erase_subset _ _ hc)
      · rcases hchl with ⟨_, h2⟩ | ⟨_, h2⟩
        · rw [h2]; exact hs4
        · rw [h2]; exact fun hc => hs4 (List.erase_subset _ _ hc)
    · rintro ⟨e1, e2⟩ he q hq
      have hmd := (mem_poolDel i _ hnd2 (e1, e2)).mp he
      obtain ⟨v, hv, _, hpar, _⟩ := hshape e1 e2 hmd.1
      obtain ⟨hs1, _, _, _⟩ := hsets (e1, v) hv
      have hqv : q ∈ v.parents := by
        rcases hpar with ⟨_, h2⟩ | ⟨_, h2⟩
        · rwa [h2] at hq
        · rw [h2] at hq; exact List.erase_subset _ _ hq
      rw [hkey3 q]
      refine ⟨hpp (e1, v) hv q hqv, ?_⟩
      intro hc
      rw [hc] at hqv hq
      rcases hpar with ⟨hnin, h2⟩ | ⟨_, h2⟩
      · exact hnin ((hbi (i, tx) htxm (e1, v) hv).mpr hqv)
      · rw [h2] at hq
        exact (hs1.mem_erase_iff.mp hq).1 rfl
    · rintro ⟨e1, e2⟩ he q hq
      have hmd := (mem_poolDel i _ hnd2 (e1, e2)).mp he
      obtain ⟨v, hv, _, _, hchl⟩ := hshape e1 e2 hmd.1
      obtain ⟨_, hs2, _, _⟩ := hsets (e1, v) hv
      have hqv : q ∈ v.children := by
        rcases hchl with ⟨_, h2⟩ | ⟨_, h2⟩
        · rwa [h2] at hq
        · rw [h2] at hq; exact List.erase_subset _ _ hq
      rw [hkey3 q]
      refine ⟨hcp (e1, v) hv q hqv, ?_⟩
      intro hc
      rw [hc] at hqv hq
      rcases hchl with ⟨hnin, h2⟩ | ⟨_, h2⟩
      · exact hnin ((hbi (e1, v) hv (i, tx) htxm).mp hqv)
      · rw [h2] at hq
        exact (hs2.mem_erase_iff.mp hq).1 rfl
    · rintro ⟨a1, a2⟩ ha ⟨b1, b2⟩ hb
      show b1 ∈ a2.children ↔ a1 ∈ b2.parents
      have hma := (mem_poolDel i _ hnd2 (a1, a2)).mp ha
      have hmb := (mem_poolDel i _ hnd2 (b1, b2)).mp hb
      obtain ⟨v, hv, _, _, hachl⟩ := hshape a1 a2 hma.1
      obtain ⟨w, hw, _, hbpar, _⟩ := hshape b1 b2 hmb.1
      have hch : b1 ∈ a2.children ↔ b1 ∈ v.children := by
        rcases hachl with ⟨_, h2⟩ | ⟨_, h2⟩
        · rw [h2]
        · rw [h2]; exact List.mem_erase_of_ne hmb.2
      have hpr : a1 ∈ b2.parents ↔ a1 ∈ w.parents := by
        rcases hbpar with ⟨_, h2⟩ | ⟨_, h2⟩
        · rw [h2]
        · rw [h2]; exact List.mem_erase_of_ne hma.2
      rw [hch, hpr]
      exact hbi (a1, v) hv (b1, w) hw

end BtcSpec

namespace BtcSpec

/-- Unfolding equation of an operation sequence at a cons cell. -/
theorem applyOps_cons (op : PoolOp) (rest : List PoolOp) (p : Mempool) :
    applyOps (op :: rest) p = applyOps rest (applyOp p op) := rfl

/-- A well-formed pool is bidirectionally consistent. -/
theorem GoodPool.bidir (p : Mempool) (h : GoodPool p) : bidirConsistent p = true := by
  obtain ⟨hnd, hid, hsets, hpp, hcp, hbi⟩ := h
  unfold bidirConsistent
  rw [List.all_eq_true]
  intro et het
  rw [List.all_eq_true]
  intro ec hec
  rw [beq_iff_eq, hid et het, hid ec hec, Bool.eq_iff_iff]
  have hcc : ∀ (l : List String) (a : String), l.contains a = true ↔ a ∈ l :=
    fun l a => List.elem_iff
  rw [hcc, hcc]
  exact hbi et het ec hec

/-- The empty pool is well-formed. -/
theorem goodPool_nil : GoodPool [] := by
  refine ⟨List.nodup_nil, ?_, ?_, ?_, ?_, ?_⟩ <;>
    intro e he <;> exact absurd he (List.not_mem_nil e)

/-- Dependency order on a sequence of mempool operations: each added
transaction carries a fresh id, declares no children, and lists
duplicate-free parents that are all already stored at the moment it is
added; removals are unrestricted. -/
def wfOps : Mempool → List PoolOp → Bool
  | _, [] => true
  | p, PoolOp.add tx :: rest =>
    decide (tx.children = []) && (poolGet p tx.tx_id).isNone &&
      tx.parents.all (fun q => (poolGet p q).isSome) && decide tx.parents.Nodup &&
      wfOps (add_transaction p tx) rest
  | p, PoolOp.remove i :: rest => wfOps (remove_transaction p i) rest

/-- Unfolding equation of the dependency-order check at an addition. -/
theorem wfOps_cons_add (p : Mempool) (tx : MempoolTransaction) (rest : List PoolOp) :
    wfOps p (PoolOp.add tx :: rest) =
      (decide (tx.children = []) && (poolGet p tx.tx_id).isNone &&
        tx.parents.all (fun q => (poolGet p q).isSome) && decide tx.parents.Nodup &&
        wfOps (add_transaction p tx) rest) := rfl

/-- Unfolding equation of the dependency-order check at a removal. -/
theorem wfOps_cons_remove (p : Mempool) (i : String) (rest : List PoolOp) :
    wfOps p (PoolOp.remove i :: rest) = wfOps (remove_transaction p i) rest := rfl

/-- A dependency-ordered operation sequence preserves well-formedness. -/
theorem wfOps_preserves (ops : List PoolOp) : ∀ (p : Mempool), GoodPool p →
    wfOps p ops = true → GoodPool (applyOps ops p) := by
  induction ops with
  | nil => intro p h _; exact h
  | cons op rest ih =>
    intro p hgp hwf
    cases op with
    | add tx =>
      rw [wfOps_cons_add] at hwf
      simp only [Bool.and_eq_true] at hwf
      obtain ⟨⟨⟨⟨h1, h2⟩, h3⟩, h4⟩, h5⟩ := hwf
      rw [applyOps_cons]
      refine ih (add_transaction p tx) ?_ h5
      refine add_preserves p tx hgp (of_decide_eq_true h1) ?_ ?_ (of_decide_eq_true h4)
      · intro hmem
        rw [← poolGet_isSome_iff] at hmem
        rw [Option.isNone_iff_eq_none] at h2
        rw [h2] at hmem
        exact Bool.false_ne_true hmem
      · intro q hq
        rw [← poolGet_isSome_iff]
        exact List.all_eq_true.mp h3 q hq
    | remove i =>
      rw [wfOps_cons_remove] at hwf
      rw [applyOps_cons]
      exact ih (remove_transaction p i) (remove_preserves p i hgp) hwf

/-- C10: the bidirectional edge invariant does NOT hold for every
sequence of `add_transaction` / `remove_transaction` calls: adding a
transaction "c" that names a not-yet-stored parent "p", then adding
"p", leaves "p" stored in c.parents while p.children stays empty, so
`bidirConsistent` is false. -/
theorem c10_counterexample :
    bidirConsistent (applyOps
      [PoolOp.add { tx_id := "c", fee := 1, size := 1, parents := ["p"] },
       PoolOp.add { tx_id := "p", fee := 1, size := 1 }] []) = false := by
  decide

/-- C10 (amended): starting from the empty mempool, every sequence of
`add_transaction` / `remove_transaction` calls that is issued in
dependency order — each added transaction has a fresh id, no declared
children, and duplicate-free parents all already present — keeps the
pool's parent/child edge sets bidirectionally consistent: for every two
stored transactions t and c, c's tx_id is in t.children iff t's tx_id
is in c.parents. -/
theorem c10_amended (ops : List PoolOp) (h : wfOps [] ops = true) :
    bidirConsistent (applyOps ops []) = true :=
  GoodPool.bidir _ (wfOps_preserves ops [] goodPool_nil h)

/-- Concrete instance of the amended C10: adding "p" and then its child
"c" is dependency-ordered and yields a bidirectionally consistent pool. -/
theorem c10_amended_witness :
    wfOps [] [PoolOp.add { tx_id := "p", fee := 1, size := 1 },
      PoolOp.add { tx_id := "c", fee := 1, size := 1, parents := ["p"] }] = true ∧
    bidirConsistent (applyOps
      [PoolOp.add { tx_id := "p", fee := 1, size := 1 },
       PoolOp.add { tx_id := "c", fee := 1, size := 1, parents := ["p"] }] []) = true :=
  ⟨by decide, c10_amended _ (by decide)⟩

end BtcSpec

namespace BtcSpec

/-! ### Claim C6 — general M-of-N multisig runs -/

/-- The first component of an `execute` call is the state `runItems`
reaches, whether or not the run errors. -/
theorem execute_fst (ctx : TxContext) (st : VMState) (s : Script) :
    (execute ctx st s).1 = (runItems ctx st s).1 := by
  unfold execute
  rcases h : runItems ctx st s with ⟨⟨stk, alt⟩, e⟩
  cases e <;> cases stk <;> rfl

/-- Stepping the execution loop over an item that succeeds. -/
theorem runItems_cons_ok (ctx : TxContext) (st st' : VMState) (it : ScriptItem)
    (rest : Script) (h : execItem ctx st it = (st', none)) :
    runItems ctx st (it :: rest) = runItems ctx st' rest := by
  conv_lhs => unfold runItems
  rw [h]

/-- Stepping the execution loop over an item that raises a `ScriptError`. -/
theorem runItems_cons_err (ctx : TxContext) (st st' : VMState) (it : ScriptItem)
    (rest : Script) (e : String) (h : execItem ctx st it = (st', some e)) :
    runItems ctx st (it :: rest) = (st', some e) := by
  conv_lhs => unfold runItems
  rw [h]

/-- Running a block of data pushes prepends the payloads, reversed, to
the stack. -/
theorem runItems_pushes (ctx : TxContext) (l : List (List Nat)) :
    ∀ (stk alt : List (List Nat)) (rest : Script),
      runItems ctx ⟨stk, alt⟩ (l.map ScriptItem.push ++ rest) =
        runItems ctx ⟨l.reverse ++ stk, alt⟩ rest := by
  induction l with
  | nil => intro stk alt rest; rfl
  | cons b t ih =>
    intro stk alt rest
    rw [List.map_cons, List.cons_append]
    rw [runItems_cons_ok ctx ⟨stk, alt⟩ ⟨b :: stk, alt⟩ (ScriptItem.push b) _ rfl]
    rw [ih (b :: stk) alt rest]
    rw [show t.reverse ++ b :: stk = (b :: t).reverse ++ stk by simp]

/-- Running a script that is only data pushes. -/
theorem runItems_pushes_nil (ctx : TxContext) (l : List (List Nat))
    (stk alt : List (List Nat)) :
    runItems ctx ⟨stk, alt⟩ (l.map ScriptItem.push) =
      (⟨l.reverse ++ stk, alt⟩, none) := by
  rw [← List.append_nil (l.map ScriptItem.push), runItems_pushes]
  rfl

/-- The constant opcodes `OP_1 … OP_16` (written `k + OP_1 - 1` by the
multisig template) push `encode_num k`. -/
theorem runItems_const (ctx : TxContext) (stk alt : List (List Nat)) (k : Nat)
    (rest : Script) (h1 : 1 ≤ k) (h16 : k ≤ 16) :
    runItems ctx ⟨stk, alt⟩ (ScriptItem.op (k + OP_1 - 1) :: rest) =
      runItems ctx ⟨encode_num (k : Int) :: stk, alt⟩ rest := by
  refine runItems_cons_ok ctx ⟨stk, alt⟩ ⟨encode_num (k : Int) :: stk, alt⟩ _ rest ?_
  show execOp ctx ⟨stk, alt⟩ (k + OP_1 - 1) = (⟨encode_num (k : Int) :: stk, alt⟩, none)
  unfold execOp
  rw [if_pos (show k + OP_1 - 1 ≤ OP_16 by simp only [OP_1, OP_16]; omega)]
  rw [if_neg (show ¬ k + OP_1 - 1 = OP_0 by simp only [OP_1, OP_0]; omega)]
  have harg : ((k + OP_1 - 1 : Nat) : Int) - ((OP_1 : Nat) : Int) + 1 = ((k : Nat) : Int) := by
    have h80 : k + OP_1 - 1 = k + 80 := by simp only [OP_1]; omega
    rw [h80]
    simp only [OP_1]
    push_cast
    omega
  rw [harg]

/-- The state left by executing a multisig unlocking script on a fresh
interpreter: the signature payloads, reversed, over the `OP_0` empty
push. -/
theorem multisig_sig_state (ctx : TxContext) (sigs : List (List Nat)) :
    (execute ctx initState (multisig_script_sig sigs)).1 = ⟨sigs.reverse ++ [[]], []⟩ := by
  rw [execute_fst]
  have h0 : runItems ctx initState (multisig_script_sig sigs) =
      runItems ctx ⟨[[]], []⟩ (sigs.map ScriptItem.push) :=
    runItems_cons_ok ctx initState ⟨[[]], []⟩ (ScriptItem.op OP_0)
      (sigs.map ScriptItem.push) rfl
  rw [h0, runItems_pushes_nil]

end BtcSpec

namespace BtcSpec

/-- Unfolding equation of the signature-counting loop at a cons cell. -/
theorem msigCount_cons (tx : List Nat) (ss : List (List Nat)) (pk : List Nat)
    (rest : List (List Nat)) (i : Nat) :
    msigCount tx ss (pk :: rest) i =
      if i ≥ ss.length then i
      else if verify_signature pk tx (ss.getD i []) then msigCount tx ss rest (i + 1)
      else msigCount tx ss rest i := rfl

/-- Over 32-byte keys and 32-byte signature payloads every
`verify_signature` call succeeds, so the counting loop consumes one
signature per key until either runs out. -/
theorem msigCount_all (tx : List Nat) (ss : List (List Nat))
    (hss : ∀ s ∈ ss, s.length = 32) :
    ∀ ks : List (List Nat), (∀ pk ∈ ks, pk.length = 32) →
      ∀ i : Nat, i ≤ ss.length → msigCount tx ss ks i = min (i + ks.length) ss.length := by
  intro ks
  induction ks with
  | nil =>
    intro _ i hi
    simp only [msigCount, List.length_nil, Nat.add_zero]
    omega
  | cons pk rest ih =>
    intro hks i hi
    rw [msigCount_cons]
    by_cases hge : i ≥ ss.length
    · rw [if_pos hge]
      simp only [List.length_cons]
      omega
    · rw [if_neg hge]
      have hilt : i < ss.length := by omega
      have hmem : ss.getD i [] ∈ ss := by
        rw [List.getD_eq_getElem?_getD, List.getElem?_eq_getElem hilt]
        exact List.getElem_mem hilt
      have hv : verify_signature pk tx (ss.getD i []) = true := by
        unfold verify_signature
        rw [hss _ hmem, hks pk (List.mem_cons_self _ _)]
        rfl
      rw [if_pos hv]
      rw [ih (fun q hq => hks q (List.mem_cons_of_mem _ hq)) (i + 1) (by omega)]
      simp only [List.length_cons]
      omega

/-- `OP_CHECKMULTISIG` on a well-laid-out stack carrying `N` public keys,
a count `m`, `m` signature payloads and at least one further item: all
counts and payloads are popped, the extra item is consumed by the bug
compatibility pop, and the loop's verdict is pushed. -/
theorem execOp_cms_eval (ctx : TxContext) (alt : List (List Nat)) (N m : Nat)
    (pks sgs : List (List Nat)) (x : List Nat) (tl : List (List Nat))
    (hN : pks.length = N) (hm : sgs.length = m) :
    execOp ctx ⟨encode_num (N : Int) :: (pks ++ encode_num (m : Int) :: (sgs ++ x :: tl)), alt⟩
      OP_CHECKMULTISIG =
      (⟨(if (msigCount ctx.tx_data sgs pks.reverse 0 : Int) = (m : Int) then [0x01] else []) :: tl,
        alt⟩, none) := by
  simp only [execOp, OP_0, OP_16, OP_NOP, OP_VERIFY, OP_RETURN, OP_DUP, OP_DROP, OP_SWAP,
    OP_2DUP, OP_3DUP, OP_OVER, OP_ROT, OP_EQUAL, OP_EQUALVERIFY, OP_1ADD, OP_1SUB, OP_ADD,
    OP_SUB, OP_SHA256, OP_HASH160, OP_HASH256, OP_CHECKSIG, OP_CHECKSIGVERIFY,
    OP_CHECKMULTISIG]
  norm_num only [if_false, if_true]
  rw [decode_encode_num]
  rw [if_neg (show ¬ (((pks ++ encode_num (m : Int) :: (sgs ++ x :: tl)).length : Int) < (N : Int)) by
    simp only [List.length_append, List.length_cons]
    push_cast
    omega)]
  rw [Int.toNat_ofNat]
  rw [← hN, List.take_left, List.drop_left]
  dsimp only
  rw [decode_encode_num]
  rw [if_neg (show ¬ (((sgs ++ x :: tl).length : Int) < (m : Int)) by
    simp only [List.length_append, List.length_cons]
    push_cast
    omega)]
  rw [Int.toNat_ofNat]
  rw [← hm, List.take_left, List.drop_left]


/-- `OP_CHECKMULTISIG` when exactly one signature item is missing: the
declared count still passes the length check because the `OP_0` empty
push is consumed as a signature, and the bug-compatibility extra pop
then underflows the stack. -/
theorem execOp_cms_bug (ctx : TxContext) (alt : List (List Nat)) (N m : Nat)
    (pks sgs : List (List Nat)) (hN : pks.length = N) (hm : sgs.length = m) :
    execOp ctx ⟨encode_num (N : Int) :: (pks ++ encode_num (m : Int) :: sgs), alt⟩
      OP_CHECKMULTISIG =
      (⟨[], alt⟩, some "OP_CHECKMULTISIG: stack underflow (bug)") := by
  simp only [execOp, OP_0, OP_16, OP_NOP, OP_VERIFY, OP_RETURN, OP_DUP, OP_DROP, OP_SWAP,
    OP_2DUP, OP_3DUP, OP_OVER, OP_ROT, OP_EQUAL, OP_EQUALVERIFY, OP_1ADD, OP_1SUB, OP_ADD,
    OP_SUB, OP_SHA256, OP_HASH160, OP_HASH256, OP_CHECKSIG, OP_CHECKSIGVERIFY,
    OP_CHECKMULTISIG]
  norm_num only [if_false, if_true]
  rw [decode_encode_num]
  rw [if_neg (show ¬ (((pks ++ encode_num (m : Int) :: sgs).length : Int) < (N : Int)) by
    simp only [List.length_append, List.length_cons]
    push_cast
    omega)]
  rw [Int.toNat_ofNat]
  rw [← hN, List.take_left, List.drop_left]
  dsimp only
  rw [decode_encode_num]
  rw [if_neg (show ¬ ((sgs.length : Int) < (m : Int)) by push_cast; omega)]
  rw [Int.toNat_ofNat]
  rw [← hm, List.take_length, List.drop_length]

/-- `OP_CHECKMULTISIG` when at least two signature items are missing:
the declared count fails the length check and the not-enough-signatures
error is raised. -/
theorem execOp_cms_missing (ctx : TxContext) (alt : List (List Nat)) (N m : Nat)
    (pks s3 : List (List Nat)) (hN : pks.length = N) (hlt : s3.length < m) :
    execOp ctx ⟨encode_num (N : Int) :: (pks ++ encode_num (m : Int) :: s3), alt⟩
      OP_CHECKMULTISIG =
      (⟨s3, alt⟩, some "OP_CHECKMULTISIG: not enough signatures") := by
  simp only [execOp, OP_0, OP_16, OP_NOP, OP_VERIFY, OP_RETURN, OP_DUP, OP_DROP, OP_SWAP,
    OP_2DUP, OP_3DUP, OP_OVER, OP_ROT, OP_EQUAL, OP_EQUALVERIFY, OP_1ADD, OP_1SUB, OP_ADD,
    OP_SUB, OP_SHA256, OP_HASH160, OP_HASH256, OP_CHECKSIG, OP_CHECKSIGVERIFY,
    OP_CHECKMULTISIG]
  norm_num only [if_false, if_true]
  rw [decode_encode_num]
  rw [if_neg (show ¬ (((pks ++ encode_num (m : Int) :: s3).length : Int) < (N : Int)) by
    simp only [List.length_append, List.length_cons]
    push_cast
    omega)]
  rw [Int.toNat_ofNat]
  rw [← hN, List.take_left, List.drop_left]
  dsimp only
  rw [decode_encode_num]
  rw [if_pos (show ((s3.length : Int) < (m : Int)) by push_cast; omega)]

/-- Running a multisig locking script over a prepared stack, when the
`OP_CHECKMULTISIG` step succeeds. -/
theorem multisig_run_ok (ctx : TxContext) (m : Nat) (pubkeys tail : List (List Nat))
    (st' : VMState) (hm1 : 1 ≤ m) (hm16 : m ≤ 16)
    (hn1 : 1 ≤ pubkeys.length) (hn16 : pubkeys.length ≤ 16)
    (hop : execOp ctx ⟨encode_num (pubkeys.length : Int) ::
        (pubkeys.reverse ++ encode_num (m : Int) :: tail), []⟩ OP_CHECKMULTISIG =
        (st', none)) :
    runItems ctx ⟨tail, []⟩ (multisig_script_pubkey m pubkeys) = (st', none) := by
  rw [show multisig_script_pubkey m pubkeys =
      ScriptItem.op (m + OP_1 - 1) :: (pubkeys.map ScriptItem.push ++
        [ScriptItem.op (pubkeys.length + OP_1 - 1), ScriptItem.op OP_CHECKMULTISIG])
    from rfl]
  rw [runItems_const ctx tail [] m _ hm1 hm16]
  rw [runItems_pushes ctx pubkeys _ _ _]
  rw [runItems_const ctx _ [] pubkeys.length _ hn1 hn16]
  rw [runItems_cons_ok ctx _ st' (ScriptItem.op OP_CHECKMULTISIG) _ hop]
  rfl

/-- Running a multisig locking script over a prepared stack, when the
`OP_CHECKMULTISIG` step raises a `ScriptError`. -/
theorem multisig_run_err (ctx : TxContext) (m : Nat) (pubkeys tail : List (List Nat))
    (st' : VMState) (e : String) (hm1 : 1 ≤ m) (hm16 : m ≤ 16)
    (hn1 : 1 ≤ pubkeys.length) (hn16 : pubkeys.length ≤ 16)
    (hop : execOp ctx ⟨encode_num (pubkeys.length : Int) ::
        (pubkeys.reverse ++ encode_num (m : Int) :: tail), []⟩ OP_CHECKMULTISIG =
        (st', some e)) :
    runItems ctx ⟨tail, []⟩ (multisig_script_pubkey m pubkeys) = (st', some e) := by
  rw [show multisig_script_pubkey m pubkeys =
      ScriptItem.op (m + OP_1 - 1) :: (pubkeys.map ScriptItem.push ++
        [ScriptItem.op (pubkeys.length + OP_1 - 1), ScriptItem.op OP_CHECKMULTISIG])
    from rfl]
  rw [runItems_const ctx tail [] m _ hm1 hm16]
  rw [runItems_pushes ctx pubkeys _ _ _]
  rw [runItems_const ctx _ [] pubkeys.length _ hn1 hn16]
  rw [runItems_cons_err ctx _ st' (ScriptItem.op OP_CHECKMULTISIG) _ e hop]


/-- C6, amended. For an M-of-N multisig lock built by
`multisig_script_pubkey` (1 ≤ M ≤ N ≤ 16) over 32-byte public keys,
executed after an unlock built by `multisig_script_sig` from 32-byte
signature payloads: supplying any M payloads succeeds — in any order,
since `verify_signature` accepts any 32-byte signature against any
32-byte key, so which key produced which signature cannot affect the
result; supplying exactly M−1 payloads fails because the
bug-compatibility extra pop consumes the `OP_0` empty push as the M-th
signature and then underflows the stack; and supplying M−2 or fewer
payloads fails via the not-enough-signatures check. -/
theorem c6_amended (ctx : TxContext) (m : Nat) (pubkeys sigs : List (List Nat))
    (hm1 : 1 ≤ m) (hmn : m ≤ pubkeys.length) (hn16 : pubkeys.length ≤ 16)
    (hpk : ∀ pk ∈ pubkeys, pk.length = 32)
    (hsg : ∀ s ∈ sigs, s.length = 32) :
    (sigs.length = m →
      (execute ctx (execute ctx initState (multisig_script_sig sigs)).1
        (multisig_script_pubkey m pubkeys)).2 = true) ∧
    (sigs.length + 1 = m →
      (runItems ctx (execute ctx initState (multisig_script_sig sigs)).1
          (multisig_script_pubkey m pubkeys)).2 =
        some "OP_CHECKMULTISIG: stack underflow (bug)" ∧
      (execute ctx (execute ctx initState (multisig_script_sig sigs)).1
        (multisig_script_pubkey m pubkeys)).2 = false) ∧
    (sigs.length + 2 ≤ m →
      (runItems ctx (execute ctx initState (multisig_script_sig sigs)).1
          (multisig_script_pubkey m pubkeys)).2 =
        some "OP_CHECKMULTISIG: not enough signatures" ∧
      (execute ctx (execute ctx initState (multisig_script_sig sigs)).1
        (multisig_script_pubkey m pubkeys)).2 = false) := by
  have hm16 : m ≤ 16 := le_trans hmn hn16
  have hn1 : 1 ≤ pubkeys.length := le_trans hm1 hmn
  have hst := multisig_sig_state ctx sigs
  refine ⟨?_, ?_, ?_⟩
  · intro hlen
    rw [hst]
    have hop := execOp_cms_eval ctx [] pubkeys.length m pubkeys.reverse sigs.reverse [] []
      (List.length_reverse pubkeys) (by simpa using hlen)
    rw [List.reverse_reverse] at hop
    rw [msigCount_all ctx.tx_data sigs.reverse
      (fun s hs' => hsg s (List.mem_reverse.mp hs')) pubkeys hpk 0 (Nat.zero_le _)] at hop
    rw [if_pos (show ((min (0 + pubkeys.length) sigs.reverse.length : Nat) : Int) = (m : Int) by
      rw [List.length_reverse, hlen, Nat.zero_add, min_eq_right hmn])] at hop
    have hrun := multisig_run_ok ctx m pubkeys (sigs.reverse ++ [[]]) _
      hm1 hm16 hn1 hn16 hop
    unfold execute
    rw [hrun]
    rfl
  · intro hlen
    rw [hst]
    have hop := execOp_cms_bug ctx [] pubkeys.length m pubkeys.reverse (sigs.reverse ++ [[]])
      (List.length_reverse pubkeys)
      (by simp only [List.length_append, List.length_reverse, List.length_cons,
            List.length_nil]
          omega)
    have hrun := multisig_run_err ctx m pubkeys (sigs.reverse ++ [[]]) ⟨[], []⟩ _
      hm1 hm16 hn1 hn16 hop
    constructor
    · rw [hrun]
    · unfold execute
      rw [hrun]
  · intro hlen
    rw [hst]
    have hop := execOp_cms_missing ctx [] pubkeys.length m pubkeys.reverse
      (sigs.reverse ++ [[]]) (List.length_reverse pubkeys)
      (by simp only [List.length_append, List.length_reverse, List.length_cons,
            List.length_nil]
          omega)
    have hrun := multisig_run_err ctx m pubkeys (sigs.reverse ++ [[]])
      ⟨sigs.reverse ++ [[]], []⟩ _ hm1 hm16 hn1 hn16 hop
    constructor
    · rw [hrun]
    · unfold execute
      rw [hrun]

/-- C6, witness for the amended theorem: a 2-of-3 lock over three
concrete 32-byte keys accepts two concrete 32-byte signatures supplied
in the reverse of key order. -/
theorem c6_amended_witness :
    (execute {}
      (execute {} initState
        (multisig_script_sig [List.replicate 32 9, List.replicate 32 8])).1
      (multisig_script_pubkey 2
        [List.replicate 32 1, List.replicate 32 2, List.replicate 32 3])).2 = true :=
  (c6_amended {} 2 [List.replicate 32 1, List.replicate 32 2, List.replicate 32 3]
    [List.replicate 32 9, List.replicate 32 8]
    (by decide) (by decide) (by decide) (by decide) (by decide)).1 (by decide)

end BtcSpec
